import Mathlib

/-!
The synchronisation engine of go-markdown-server.

A shallow embedding of the content watcher of `main.go` (`watchContentDirectory`,
`autoSyncFromContent`, `deletePostFromDB`, `broadcastChange`), of the store operations of
`db/datebase.go` (`UpsertPost`, `DeleteCollection`, `DeletePostByPath`), of the import of
`filesync/filesync.go` (`parseMarkdownFile`, `createSlug`), of the link rewriting of
`routes.go` (`processCrossReferences`) and of the text encoders of `plantuml/plantuml.go`
(`encode64`, `encode64PlantUML`).

Go strings are lists of characters.  The filesystem is the list of entries that
`filepath.Walk` reports below the sync root, the Mongo collection is a list of documents, and
the Go maps owned by the watcher are association lists whose order stands for the
unspecified iteration order of a Go map.
-/

namespace GoMarkdown

/-! ## Go strings -/

/-- A Go string, as its sequence of characters. -/
abbrev Str := List Char

/-- The function strings.HasPrefix. -/
def hasPrefix (s p : Str) : Bool := p.isPrefixOf s

/-- The function strings.HasSuffix. -/
def hasSuffix (s p : Str) : Bool := p.isSuffixOf s

/-- The function strings.TrimPrefix: `s` without the leading `p`, or `s` itself. -/
def trimPrefix (s p : Str) : Str := if hasPrefix s p then s.drop p.length else s

/-- The function strings.TrimSuffix: `s` without the trailing `p`, or `s` itself. -/
def trimSuffix (s p : Str) : Str :=
  if hasSuffix s p then s.take (s.length - p.length) else s

/-- The function strings.ToLower on ASCII letters; every other character is kept. -/
def toLower (s : Str) : Str := s.map Char.toLower

/-- Worker of `replaceAll`: `skip` characters of a match are still to be dropped. -/
def replaceAllAux (old new : Str) : Nat → Str → Str
  | _, [] => []
  | k + 1, _ :: cs => replaceAllAux old new k cs
  | 0, c :: cs =>
    if old.isPrefixOf (c :: cs) then new ++ replaceAllAux old new (old.length - 1) cs
    else c :: replaceAllAux old new 0 cs

/-- The function strings.ReplaceAll for a non-empty `old`: the non-overlapping occurrences of
`old`, found from left to right, are replaced by `new`. -/
def replaceAll (s old new : Str) : Str := replaceAllAux old new 0 s

/-- The function strings.Contains. -/
def contains : Str → Str → Bool
  | [], sub => sub.isEmpty
  | c :: cs, sub => sub.isPrefixOf (c :: cs) || contains cs sub

/-- Worker of `split`: `cur` is the piece read so far, reversed. -/
def splitAux (sep : Char) : Str → Str → List Str
  | [], cur => [cur.reverse]
  | c :: cs, cur => if c = sep then cur.reverse :: splitAux sep cs [] else splitAux sep cs (c :: cur)

/-- The function strings.Split for a one-character separator.  The result is never empty:
the empty string splits into one empty piece. -/
def split (s : Str) (sep : Char) : List Str := splitAux sep s []

/-- The function strings.Join for a one-character separator. -/
def join (parts : List Str) (sep : Char) : Str := List.intercalate [sep] parts

/-- Drops the trailing separators of a path. -/
def dropTrailingSlashes (s : Str) : Str := (s.reverse.dropWhile (· = '/')).reverse

/-- The function filepath.Base: the last element of a path.  Trailing separators are
removed first; the empty path gives "." and a path of separators only gives "/". -/
def filepathBase (p : Str) : Str :=
  if p = [] then ['.']
  else
    let q := dropTrailingSlashes p
    if q = [] then ['/'] else (split q '/').getLast?.getD []

/-! ## Documents and the store (`db/datebase.go`) -/

/-- The document type db.Post. -/
structure Post where
  title : Str
  body : Str
  url : Str
  collection : Str
  isIndex : Bool
deriving DecidableEq, Repr

/-- The Mongo collection "posts": its documents, in insertion order. -/
abbrev Store := List Post

/-- The errors that the store functions return. -/
inductive StoreError where
  | invalidKey
  | driver
  | notFound (collectionName url : Str)
deriving DecidableEq, Repr

/-- The filter `{"collection": c, "url": u}` of UpsertPost and DeletePostByPath. -/
def matchesKey (collectionName url : Str) (d : Post) : Bool :=
  decide (d.collection = collectionName) && decide (d.url = url)

/-- The update `$set` of UpsertPost, applied to the first document that matches the filter
(UpdateOne changes at most one document). -/
def setFirst (post : Post) : Store → Store
  | [] => []
  | d :: ds =>
    if matchesKey post.collection post.url d then
      { d with title := post.title, body := post.body, collection := post.collection,
               isIndex := post.isIndex } :: ds
    else d :: setFirst post ds

/-- The function db.UpsertPost.  After the key check, UpdateOne with the upsert option
updates the first document with the post's (collection, url) or, when there is none, inserts
the filter fields together with the `$set` fields.  `driverFails` says that the driver
returns an error; the store is then untouched. -/
def UpsertPost (driverFails : Bool) (store : Store) (post : Post) (key : Str) :
    Except StoreError Store :=
  if key ≠ "124252".toList then .error .invalidKey
  else if driverFails then .error .driver
  else if store.any (matchesKey post.collection post.url) then .ok (setFirst post store)
  else .ok (store ++ [post])

/-- The function db.DeleteCollection: DeleteMany on `{"collection": collectionName}`. -/
def DeleteCollection (driverFails : Bool) (store : Store) (collectionName : Str) :
    Except StoreError Store :=
  if driverFails then .error .driver
  else .ok (store.filter (fun d => !decide (d.collection = collectionName)))

/-- The function db.DeletePostByPath: DeleteOne on `{"collection": c, "url": u}`, and an
error when the deleted count is zero. -/
def DeletePostByPath (driverFails : Bool) (store : Store) (collectionName url : Str) :
    Except StoreError Store :=
  if driverFails then .error .driver
  else if store.any (matchesKey collectionName url) then
    .ok (store.eraseP (matchesKey collectionName url))
  else .error (.notFound collectionName url)

/-- A call on the store, as the watcher issues it. -/
inductive StoreOp where
  | deleteCollection (collectionName : Str)
  | deletePostByPath (collectionName url : Str)
  | upsertPost (post : Post)
deriving DecidableEq, Repr

/-- A store call together with its outcome: `true` when it returned a nil error. -/
abbrev Call := StoreOp × Bool

/-- The failures of one run: whether db.ConnectToDB fails, and for which calls the Mongo
driver returns an error. -/
structure Faults where
  connectFails : Bool
  opFails : StoreOp → Bool

/-- The run in which nothing fails. -/
def noFaults : Faults := ⟨false, fun _ => false⟩

/-! ## The filesystem below the sync root -/

/-- The fixed surroundings of the watcher: the sync root `syncDir` (a clean path such as
"content" or "/app/content", for which the walk reports `syncDir/rel` and filepath.Rel
gives `rel` back), the digest of hashFile (MD5 in hexadecimal) and the text transformation
plantuml.ProcessPlantUMLWithBase. -/
structure Env where
  syncDir : Str
  hashOf : Str → Str
  processPlantUML : Str → Str → Str

/-- One entry that filepath.Walk reports below the root: its path relative to the root
("/"-separated), whether it is a directory, the bytes of a file (`none` when
ioutil.ReadFile fails) and whether the walk reports an error for it (`err != nil`). -/
structure Entry where
  rel : Str
  isDir : Bool
  content : Option Str
  walkErr : Bool
deriving DecidableEq, Repr

/-- The tree: `none` when the sync root does not exist, otherwise the entries below the
root in the order of the walk (the root itself contributes nothing to either walk). -/
abbrev Tree := Option (List Entry)

/-- The path that the walk passes to its callback. -/
def walkPath (env : Env) (e : Entry) : Str := env.syncDir ++ '/' :: e.rel

/-- The result of info.Name(): the base name of the entry. -/
def Entry.name (e : Entry) : Str := filepathBase e.rel

/-- The test `os.IsNotExist(err)` after `os.Stat(path)`. -/
def notExist (env : Env) (tree : Tree) (path : Str) : Bool :=
  match tree with
  | none => true
  | some es => !es.any (fun e => decide (walkPath env e = path))

/-- The function hashFile: the digest of the content, or `none` when it cannot be read. -/
def hashFile (env : Env) (e : Entry) : Option Str := e.content.map env.hashOf

/-! ## The path mapping of autoSyncFromContent and of deletePostFromDB -/

/-- Lines 128-138 of autoSyncFromContent: the collection name and the file name below the
collection directory. -/
def autoSyncCollection (rel : Str) : Str × Str :=
  let parts := split rel '/'
  if parts.length = 1 then ("content/root".toList, parts.headD [])
  else ("content/".toList ++ parts.headD [], join parts.tail '/')

/-- Lines 127-168 of autoSyncFromContent: the document built for the file at `rel` with
the given content. -/
def autoSyncPost (env : Env) (rel : Str) (contentBytes : Str) : Post :=
  let collectionName := (autoSyncCollection rel).1
  let filename := (autoSyncCollection rel).2
  let title := trimSuffix (filepathBase filename) ".md".toList
  let url := toLower (replaceAll title " ".toList "-".toList)
  let url := replaceAll url "_".toList "-".toList
  let lowerName := toLower (filepathBase filename)
  let isIndex := decide (lowerName = "index.md".toList) || decide (lowerName = "readme.md".toList)
  let url := if isIndex then replaceAll collectionName "/".toList "-".toList ++ "-index".toList
             else url
  let baseDir := trimPrefix collectionName "content/".toList
  { title := title, url := url, body := env.processPlantUML contentBytes baseDir,
    collection := collectionName, isIndex := isIndex }

/-- The loop `for strings.Contains(url, "--") { url = strings.ReplaceAll(url, "--", "-") }`
with a bound on its number of rounds. -/
def collapseLoop : Nat → Str → Str
  | 0, s => s
  | n + 1, s =>
    if contains s "--".toList then collapseLoop n (replaceAll s "--".toList "-".toList) else s

/-- The dash-collapsing loop; every round shortens the string, so its length bounds the
number of rounds. -/
def collapseDashes (s : Str) : Str := collapseLoop s.length s

/-- Lines 183-212 of deletePostFromDB: the (collection, url) that is deleted for a file
path.  The call filepath.ToSlash is the identity on "/"-separated paths. -/
def deleteKey (env : Env) (filePath : Str) : Str × Str :=
  let relPath := trimPrefix filePath (env.syncDir ++ "/".toList)
  let parts := split relPath '/'
  let collectionName := "content/".toList ++ parts.headD []
  let fileName := filepathBase filePath
  let lowerFilename := toLower fileName
  let isIndex := decide (lowerFilename = "index.md".toList) ||
    decide (lowerFilename = "readme.md".toList)
  let url :=
    if isIndex then collectionName ++ "-index".toList
    else
      let url := trimSuffix relPath ".md".toList
      let url := toLower url
      let url := replaceAll url " ".toList "-".toList
      let url := replaceAll url "/".toList "-".toList
      collapseDashes url
  (collectionName, url)

/-- The (collection, url) under which autoSyncFromContent upserts the file at `rel`. -/
def upsertKey (env : Env) (rel : Str) : Str × Str :=
  ((autoSyncPost env rel []).collection, (autoSyncPost env rel []).url)

/-! ## autoSyncFromContent -/

/-- What autoSyncFromContent leaves behind: whether it returned an error, the store, and the
store calls it issued, in order. -/
structure SyncResult where
  err : Bool
  store : Store
  calls : List Call
deriving DecidableEq, Repr

/-- The walk of autoSyncFromContent.  A walk error or an unreadable .md file makes the
callback return the error, which stops the walk; a failed upsert is logged and the walk
goes on. -/
def autoSyncWalk (env : Env) (faults : Faults) : List Entry → Store → SyncResult
  | [], store => ⟨false, store, []⟩
  | e :: es, store =>
    if e.walkErr then ⟨true, store, []⟩
    else if e.isDir then autoSyncWalk env faults es store
    else if !hasSuffix (toLower e.name) ".md".toList then autoSyncWalk env faults es store
    else
      match e.content with
      | none => ⟨true, store, []⟩
      | some contentBytes =>
        let post := autoSyncPost env e.rel contentBytes
        match UpsertPost (faults.opFails (.upsertPost post)) store post "124252".toList with
        | .error _ =>
          let r := autoSyncWalk env faults es store
          { r with calls := (.upsertPost post, false) :: r.calls }
        | .ok store1 =>
          let r := autoSyncWalk env faults es store1
          { r with calls := (.upsertPost post, true) :: r.calls }

/-- The function autoSyncFromContent: the error of os.Stat when the root is missing,
otherwise the walk. -/
def autoSyncFromContent (env : Env) (faults : Faults) (tree : Tree) (store : Store) :
    SyncResult :=
  match tree with
  | none => ⟨true, store, []⟩
  | some es => autoSyncWalk env faults es store

/-! ## deletePostFromDB -/

/-- The function deletePostFromDB: the store after it, the call it issued (none when the
connection fails) and whether it returned nil. -/
def deletePostFromDB (env : Env) (faults : Faults) (store : Store) (filePath : Str) :
    Store × List Call × Bool :=
  let key := deleteKey env filePath
  if faults.connectFails then (store, [], false)
  else
    match DeletePostByPath (faults.opFails (.deletePostByPath key.1 key.2)) store key.1 key.2 with
    | .error _ => (store, [(.deletePostByPath key.1 key.2, false)], false)
    | .ok store1 => (store1, [(.deletePostByPath key.1 key.2, true)], true)

/-! ## broadcastChange -/

/-- A subscriber channel `make(chan string, cap)`: its capacity and the messages waiting in
its buffer, oldest first. -/
structure Chan where
  cap : Nat
  buf : List Str
deriving DecidableEq, Repr

/-- The registry `clients`: the registered channels, each with the identity of its owner. -/
abbrev Registry := List (Nat × Chan)

/-- The statement `select { case client <- message: ... default: ... }`: the message is
queued when the buffer has room and dropped otherwise. -/
def trySend (c : Chan) (message : Str) : Chan :=
  if c.buf.length < c.cap then { c with buf := c.buf ++ [message] } else c

/-- The function broadcastChange: the loop over the registered clients. -/
def broadcastChange : Registry → Str → Registry
  | [], _ => []
  | (id, c) :: rest, message => (id, trySend c message) :: broadcastChange rest message

/-- Lines 401-407 of sseHandler: a new channel of capacity 10 is registered. -/
def register (clients : Registry) (id : Nat) : Registry := clients ++ [(id, ⟨10, []⟩)]

/-! ## watchContentDirectory -/

/-- The lookup `m[k]` in a Go map. -/
def mapGet : List (Str × Str) → Str → Option Str
  | [], _ => none
  | (k1, v1) :: m, k => if k1 = k then some v1 else mapGet m k

/-- The assignment `m[k] = v` in a Go map. -/
def mapSet : List (Str × Str) → Str → Str → List (Str × Str)
  | [], k, v => [(k, v)]
  | (k1, v1) :: m, k, v => if k1 = k then (k, v) :: m else (k1, v1) :: mapSet m k v

/-- The assignment `s[k] = true` in a Go map used as a set. -/
def setAdd (s : List Str) (k : Str) : List Str := if k ∈ s then s else s ++ [k]

/-- The state that the watcher keeps between two ticks: `fileHashes` (path to digest) and
`collectionDirs` (the first-level directory names). -/
structure WatchState where
  fileHashes : List (Str × Str)
  collectionDirs : List Str
deriving DecidableEq, Repr

/-- The variables of the scan of one tick: `changed`, `fileHashes` and
`currentCollections`. -/
structure Scan where
  changed : Bool
  fileHashes : List (Str × Str)
  currentCollections : List Str
deriving DecidableEq, Repr

/-- The callback of the walk of one tick (lines 291-327). -/
def scanVisit (env : Env) (sc : Scan) (e : Entry) : Scan :=
  if e.walkErr then sc
  else
    let path := walkPath env e
    let sc1 :=
      if e.isDir && decide (path ≠ env.syncDir) then
        let parts := split e.rel '/'
        if 1 ≤ parts.length then
          { sc with currentCollections := setAdd sc.currentCollections (parts.headD []) }
        else sc
      else sc
    if e.isDir then sc1
    else if !hasSuffix (toLower path) ".md".toList then sc1
    else
      match hashFile env e with
      | none => sc1
      | some currentHash =>
        match mapGet sc1.fileHashes path with
        | none => { sc1 with changed := true, fileHashes := mapSet sc1.fileHashes path currentHash }
        | some previousHash =>
          if previousHash ≠ currentHash then
            { sc1 with changed := true, fileHashes := mapSet sc1.fileHashes path currentHash }
          else sc1

/-- The walk of one tick; a missing root is reported to the callback as an error, which it
ignores. -/
def scanTree (env : Env) (tree : Tree) (sc : Scan) : Scan :=
  match tree with
  | none => sc
  | some es => es.foldl (scanVisit env) sc

/-- The effect of a loop of the tick on the store: the store after it, the calls it issued
and whether it set `changed`. -/
structure Applied where
  store : Store
  calls : List Call
  changed : Bool
deriving DecidableEq, Repr

/-- The loop over `collectionDirs` (lines 330-349): every tracked collection that the scan
did not see is deleted from the store under its name prefixed with "content/". -/
def deleteCollections (faults : Faults) (currentCollections : List Str) :
    List Str → Store → Applied
  | [], store => ⟨store, [], false⟩
  | collectionName :: rest, store =>
    if collectionName ∈ currentCollections then
      deleteCollections faults currentCollections rest store
    else
      let fullCollectionName := "content/".toList ++ collectionName
      if faults.connectFails then deleteCollections faults currentCollections rest store
      else
        match DeleteCollection (faults.opFails (.deleteCollection fullCollectionName)) store
            fullCollectionName with
        | .error _ =>
          let r := deleteCollections faults currentCollections rest store
          { r with calls := (.deleteCollection fullCollectionName, false) :: r.calls }
        | .ok store1 =>
          let r := deleteCollections faults currentCollections rest store1
          { r with calls := (.deleteCollection fullCollectionName, true) :: r.calls,
                   changed := true }

/-- The loop over `fileHashes` (lines 355-367): every tracked path that no longer exists is
dropped from the map and deleted from the store with deletePostFromDB. -/
def deleteFiles (env : Env) (faults : Faults) (tree : Tree) :
    List (Str × Str) → Store → List (Str × Str) × Applied
  | [], store => ([], ⟨store, [], false⟩)
  | (path, h) :: rest, store =>
    if notExist env tree path then
      let d := deletePostFromDB env faults store path
      let r := deleteFiles env faults tree rest d.1
      (r.1, { r.2 with calls := d.2.1 ++ r.2.calls, changed := true })
    else
      let r := deleteFiles env faults tree rest store
      ((path, h) :: r.1, r.2)

/-- What one tick of the watcher leaves behind. -/
structure CycleResult where
  state : WatchState
  store : Store
  clients : Registry
  calls : List Call
  changed : Bool
  broadcasts : List Str
deriving DecidableEq, Repr

/-- One tick of watchContentDirectory (lines 286-378): the scan, the deletion of the
collections and of the files that disappeared, and, when `changed` is set,
autoSyncFromContent followed by the broadcast of "reload" when it returned no error. -/
def watchCycle (env : Env) (faults : Faults) (tree : Tree) (st : WatchState) (store : Store)
    (clients : Registry) : CycleResult :=
  let sc := scanTree env tree ⟨false, st.fileHashes, []⟩
  let dc := deleteCollections faults sc.currentCollections st.collectionDirs store
  let df := deleteFiles env faults tree sc.fileHashes dc.store
  let changed := sc.changed || dc.changed || df.2.changed
  if changed then
    let r := autoSyncFromContent env faults tree df.2.store
    if r.err then
      ⟨⟨df.1, sc.currentCollections⟩, r.store, clients, dc.calls ++ df.2.calls ++ r.calls,
        true, []⟩
    else
      ⟨⟨df.1, sc.currentCollections⟩, r.store, broadcastChange clients "reload".toList,
        dc.calls ++ df.2.calls ++ r.calls, true, ["reload".toList]⟩
  else
    ⟨⟨df.1, sc.currentCollections⟩, df.2.store, clients, dc.calls ++ df.2.calls, false, []⟩

/-- The initial scan of watchContentDirectory (lines 253-279). -/
def initVisit (env : Env) (st : WatchState) (e : Entry) : WatchState :=
  if e.walkErr then st
  else
    let path := walkPath env e
    let st1 :=
      if e.isDir && decide (path ≠ env.syncDir) then
        let parts := split e.rel '/'
        if 1 ≤ parts.length then
          { st with collectionDirs := setAdd st.collectionDirs (parts.headD []) }
        else st
      else st
    if !e.isDir && hasSuffix (toLower path) ".md".toList then
      match hashFile env e with
      | some hash => { st1 with fileHashes := mapSet st1.fileHashes path hash }
      | none => st1
    else st1

/-- The state of the watcher before its first tick. -/
def watchInit (env : Env) (tree : Tree) : WatchState :=
  match tree with
  | none => ⟨[], []⟩
  | some es => es.foldl (initVisit env) ⟨[], []⟩

/-! ## The import of `filesync/filesync.go` -/

/-- The function strings.Cut for a non-empty separator: the text before and after the first
occurrence of `sep`, or `none` when `sep` does not occur. -/
def cut (sep : Str) : Str → Option (Str × Str)
  | [] => none
  | c :: cs =>
    if sep.isPrefixOf (c :: cs) then some ([], (c :: cs).drop sep.length)
    else (cut sep cs).map (fun r => (c :: r.1, r.2))

/-- The function strings.SplitN for a non-empty separator and a count `n` that is not
negative: at most `n` pieces, the last one being the unsplit remainder. -/
def splitN (sep : Str) : Nat → Str → List Str
  | 0, _ => []
  | 1, s => [s]
  | n + 2, s =>
    match cut sep s with
    | none => [s]
    | some r => r.1 :: splitN sep (n + 1) r.2

/-- The function unicode.IsSpace. -/
def isSpace (c : Char) : Bool :=
  (9 ≤ c.toNat && c.toNat ≤ 13) || c.toNat == 32 || c.toNat == 0x85 || c.toNat == 0xA0 ||
  c.toNat == 0x1680 || (0x2000 ≤ c.toNat && c.toNat ≤ 0x200a) || c.toNat == 0x2028 ||
  c.toNat == 0x2029 || c.toNat == 0x202f || c.toNat == 0x205f || c.toNat == 0x3000

/-- The function strings.TrimFunc: the leading and trailing characters that satisfy `f` are
removed. -/
def trimFunc (f : Char → Bool) (s : Str) : Str :=
  ((s.dropWhile f).reverse.dropWhile f).reverse

/-- The function strings.TrimSpace. -/
def trimSpace (s : Str) : Str := trimFunc isSpace s

/-- The function strings.Trim: the leading and trailing characters of `cutset` are removed. -/
def trim (s cutset : Str) : Str := trimFunc (fun c => decide (c ∈ cutset)) s

/-- The line separator "\n". -/
def newline : Char := Char.ofNat 10

/-- The cutset of the title: the double quote and the single quote. -/
def quotes : Str := [Char.ofNat 34, Char.ofNat 39]

/-- The results of parseMarkdownFile. -/
structure Parsed where
  title : Str
  body : Str
  isIndex : Bool
deriving DecidableEq, Repr

/-- The first line that, once trimmed, starts with `marker`; the loops of parseMarkdownFile
stop at it. -/
def firstLineWith (marker : Str) (text : Str) : Option Str :=
  ((split text newline).map trimSpace).find? (fun line => hasPrefix line marker)

/-- The function parseMarkdownFile of filesync.go. -/
def parseMarkdownFile (content filename : Str) : Parsed :=
  let fileTitle := trimSuffix filename ".md".toList
  let lowerFilename := toLower filename
  let isIndex := decide (lowerFilename = "index.md".toList) ||
    decide (lowerFilename = "readme.md".toList)
  let parts := splitN "---".toList 3 content
  let inBlock := hasPrefix content "---".toList && decide (3 ≤ parts.length)
  let body := if inBlock then trimSpace (parts.getD 2 []) else content
  let title :=
    if inBlock then
      match firstLineWith "title:".toList (parts.getD 1 []) with
      | some line => trim (trimSpace (trimPrefix line "title:".toList)) quotes
      | none => fileTitle
    else fileTitle
  let title :=
    if title = fileTitle then
      match firstLineWith "# ".toList body with
      | some line => trimPrefix line "# ".toList
      | none => title
    else title
  ⟨title, body, isIndex⟩

/-- The function createSlug of filesync.go; filepath.ToSlash is the identity on
"/"-separated paths. -/
def createSlug (_title relPath : Str) : Str :=
  let slug := trimSuffix relPath ".md".toList
  let slug := toLower slug
  let slug := replaceAll slug " ".toList "-".toList
  let slug := replaceAll slug "/".toList "-".toList
  collapseDashes slug

/-! ## The link rewriting of `routes.go` -/

/-- The body of the loop of processCrossReferences: the rewriting of one line. -/
def rewriteLine (line : Str) : Str :=
  let line := replaceAll line "](./".toList "](/post/".toList
  let line := replaceAll line "](.md)".toList "]".toList
  if contains line "](/post/".toList then replaceAll line ".md)".toList ")".toList else line

/-- The function processCrossReferences of routes.go; the collection is not used. -/
def processCrossReferences (body _currentCollection : Str) : Str :=
  join ((split body newline).map rewriteLine) newline

/-! ## The encoders of `plantuml/plantuml.go` -/

/-- A byte. -/
abbrev Byte := Fin 256

/-- The alphabet of encode64 and of encode64PlantUML. -/
def alphabet : Str :=
  "0123456789ABCDEFGHIJKLMNOPQRSTUVWXYZabcdefghijklmnopqrstuvwxyz-_".toList

/-- The alphabet of base64.StdEncoding. -/
def stdAlphabet : Str :=
  "ABCDEFGHIJKLMNOPQRSTUVWXYZabcdefghijklmnopqrstuvwxyz0123456789+/".toList

/-- The character of the standard alphabet for a six-bit value. -/
def stdChar (i : Nat) : Char := stdAlphabet.getD i '='

/-- The function base64.StdEncoding.EncodeToString of the Go library: three bytes give four
characters, and the last group is padded with "=". -/
def stdEncode : List Byte → Str
  | [] => []
  | [a] => [stdChar (a.val / 4), stdChar (a.val % 4 * 16), '=', '=']
  | [a, b] =>
    [stdChar (a.val / 4), stdChar (a.val % 4 * 16 + b.val / 16), stdChar (b.val % 16 * 4), '=']
  | a :: b :: c :: rest =>
    stdChar (a.val / 4) :: stdChar (a.val % 4 * 16 + b.val / 16) ::
      stdChar (b.val % 16 * 4 + c.val / 64) :: stdChar (c.val % 64) :: stdEncode rest

/-- The switch of encode64: what is written for one character of the standard encoding. -/
def encode64Char (ch : Char) : Str :=
  if ch = '+' then "-".toList
  else if ch = '/' then "_".toList
  else if ch = '=' then []
  else if 'A' ≤ ch ∧ ch ≤ 'Z' then [alphabet.getD (ch.toNat - 'A'.toNat + 10) '0']
  else if 'a' ≤ ch ∧ ch ≤ 'z' then [alphabet.getD (ch.toNat - 'a'.toNat + 36) '0']
  else if '0' ≤ ch ∧ ch ≤ '9' then [alphabet.getD (ch.toNat - '0'.toNat) '0']
  else []

/-- The function encode64. -/
def encode64 (data : List Byte) : Str := (stdEncode data).flatMap encode64Char

/-- The variables of encode64PlantUML: the 32-bit accumulator `bits`, the number `bitsLen`
of its bits that are still to be written, and the text written so far. -/
structure Acc where
  bits : Nat
  bitsLen : Nat
  result : Str
deriving DecidableEq, Repr

/-- The loop `for bitsLen >= 6`, with a bound on its number of rounds. -/
def emitLoop : Nat → Acc → Acc
  | 0, s => s
  | fuel + 1, s =>
    if 6 ≤ s.bitsLen then
      emitLoop fuel ⟨s.bits, s.bitsLen - 6,
        s.result ++ [alphabet.getD ((s.bits >>> (s.bitsLen - 6)) &&& 0x3F) '0']⟩
    else s

/-- The body of the loop over the bytes of encode64PlantUML; every round of the inner loop
takes six bits, so `bitsLen` bounds the number of its rounds. -/
def pushByte (s : Acc) (b : Byte) : Acc :=
  emitLoop (s.bitsLen + 8) ⟨((s.bits <<< 8) ||| b.val) % 2 ^ 32, s.bitsLen + 8, s.result⟩

/-- The function encode64PlantUML. -/
def encode64PlantUML (data : List Byte) : Str :=
  let s := data.foldl pushByte ⟨0, 0, []⟩
  if 0 < s.bitsLen then
    s.result ++ [alphabet.getD (((s.bits <<< (6 - s.bitsLen)) % 2 ^ 32) &&& 0x3F) '0']
  else s.result

/-! ## What the claims speak about -/

/-- The files that autoSyncFromContent imports: regular files whose name ends in ".md",
in any letter case. -/
def isMarkdown (e : Entry) : Bool := !e.isDir && hasSuffix (toLower e.name) ".md".toList

/-- The documents that the path mapping of autoSyncFromContent derives from a tree: one for
every readable .md file. -/
def derivedPosts (env : Env) (tree : Tree) : List Post :=
  match tree with
  | none => []
  | some es =>
    es.filterMap (fun e => if isMarkdown e then e.content.map (autoSyncPost env e.rel) else none)

/-- The store matches the tree: its documents whose collection starts with "content/" are
exactly the documents derived from the tree. -/
def Converged (env : Env) (tree : Tree) (store : Store) : Prop :=
  (∀ p ∈ store, hasPrefix p.collection "content/".toList = true → p ∈ derivedPosts env tree) ∧
  (∀ p ∈ derivedPosts env tree, p ∈ store)

instance (env : Env) (tree : Tree) (store : Store) : Decidable (Converged env tree store) := by
  unfold Converged; infer_instance

/-- A tree is well formed when no two of its entries have the same path. -/
def Tree.wf (tree : Tree) : Prop :=
  match tree with
  | none => True
  | some es => (es.map Entry.rel).Nodup

/-- The place of a store call in the order of a tick: collection deletions, then per-file
deletions, then upserts. -/
def opRank : StoreOp → Nat
  | .deleteCollection _ => 0
  | .deletePostByPath _ _ => 1
  | .upsertPost _ => 2

/-- Every run of consecutive "-" becomes a single "-". -/
def squeezeDashes : Str → Str
  | [] => []
  | c :: rest =>
    if c = '-' ∧ rest.head? = some '-' then squeezeDashes rest else c :: squeezeDashes rest

/-- The url of a non-index file in the words of the specification: the relative path
without its extension, lower-cased, every path separator and every space replaced by "-",
and every run of "-" collapsed. -/
def specUrl (rel : Str) : Str :=
  squeezeDashes ((toLower (trimSuffix rel ".md".toList)).map
    (fun c => if c = '/' ∨ c = ' ' then '-' else c))

/-- What autoSyncFromContent does to one character of the title to build the url: a space
becomes "-", the result is lower-cased, and an underscore becomes "-". -/
def slugChar (c : Char) : Char :=
  let c1 := if c = ' ' then '-' else c
  let c2 := c1.toLower
  if c2 = '_' then '-' else c2

/-- The test of the index file: the name, lower-cased, is "index.md" or "readme.md". -/
def isIndexName (name : Str) : Bool :=
  decide (toLower name = "index.md".toList) || decide (toLower name = "readme.md".toList)

/-! ## Views of the scan used in the proofs -/

/-- The first-level directory names that the scan of one tick collects. -/
def collectionsOf (env : Env) (tree : Tree) : List Str :=
  (scanTree env tree ⟨false, [], []⟩).currentCollections

/-- The digest under which the scan of a tick tracks an entry: that of a readable regular
file whose path ends in ".md"; `none` for every entry that the callback skips. -/
def trackable (env : Env) (e : Entry) : Option Str :=
  if e.walkErr then none
  else if e.isDir then none
  else if !hasSuffix (toLower (walkPath env e)) ".md".toList then none
  else hashFile env e

/-- The effect of the callback of the scan on `changed` and `fileHashes`. -/
def visitHashes (env : Env) (s : Bool × List (Str × Str)) (e : Entry) :
    Bool × List (Str × Str) :=
  match trackable env e with
  | none => s
  | some h =>
    if mapGet s.2 (walkPath env e) = some h then s else (true, mapSet s.2 (walkPath env e) h)

/-- The effect of the callback of the scan on `currentCollections`. -/
def visitCollections (env : Env) (cc : List Str) (e : Entry) : List Str :=
  if e.walkErr then cc
  else if e.isDir && decide (walkPath env e ≠ env.syncDir) then
    if 1 ≤ (split e.rel '/').length then setAdd cc ((split e.rel '/').headD []) else cc
  else cc

/-- The tracked state is settled on a tree: the tracked collections are those of the tree,
every tracked path exists, and every tracked entry of the tree has its current digest in
the map. -/
def Settled (env : Env) (tree : Tree) (st : WatchState) : Prop :=
  st.collectionDirs = collectionsOf env tree ∧
  (∀ kv ∈ st.fileHashes, notExist env tree kv.1 = false) ∧
  ∀ es, tree = some es → ∀ e ∈ es, ∀ h, trackable env e = some h →
    mapGet st.fileHashes (walkPath env e) = some h

instance (tree : Tree) : Decidable tree.wf :=
  match tree with
  | none => isTrue trivial
  | some es => inferInstanceAs (Decidable (es.map Entry.rel).Nodup)

/-- The character of the alphabet for a six-bit value. -/
def sextet (i : Nat) : Char := alphabet.getD i '0'

/-- The text of encode64PlantUML, group by group: three bytes give four characters, one
byte left over gives two and two bytes left over give three. -/
def sextets : List Byte → Str
  | [] => []
  | [a] => [sextet (a.val / 4), sextet (a.val % 4 * 16)]
  | [a, b] =>
    [sextet (a.val / 4), sextet (a.val % 4 * 16 + b.val / 16), sextet (b.val % 16 * 4)]
  | a :: b :: c :: rest =>
    sextet (a.val / 4) :: sextet (a.val % 4 * 16 + b.val / 16) ::
      sextet (b.val % 16 * 4 + c.val / 64) :: sextet (c.val % 64) :: sextets rest

/-- The end of encode64PlantUML: the bits that remain are written as one more character. -/
def flushAcc (s : Acc) : Str :=
  if 0 < s.bitsLen then
    s.result ++ [alphabet.getD (((s.bits <<< (6 - s.bitsLen)) % 2 ^ 32) &&& 0x3F) '0']
  else s.result

/-! ## Sample inputs -/

/-- The sync root "content", the identity as digest and as text transformation. -/
def demoEnv : Env := ⟨"content".toList, id, fun body _ => body⟩

/-- A readable file. -/
def demoFile (rel content : String) : Entry := ⟨rel.toList, false, some content.toList, false⟩

/-- A file that cannot be read. -/
def lockedFile (rel : String) : Entry := ⟨rel.toList, false, none, false⟩

/-- A directory. -/
def demoDir (rel : String) : Entry := ⟨rel.toList, true, none, false⟩

/-- The tree with `A/a-notes.md` and `A/notes.md`. -/
def treeTwoNotes : Tree :=
  some [demoDir "A", demoFile "A/a-notes.md" "x", demoFile "A/notes.md" "y"]

/-- The same tree after `A/notes.md` was removed. -/
def treeOneNote : Tree := some [demoDir "A", demoFile "A/a-notes.md" "x"]

/-- The document of `A/notes.md`. -/
def notesPost : Post :=
  ⟨"notes".toList, "y".toList, "notes".toList, "content/A".toList, false⟩

/-- The store that autoSyncFromContent builds from `treeTwoNotes`. -/
def storeTwoNotes : Store := (autoSyncFromContent demoEnv noFaults treeTwoNotes []).store

/-- The run in which every store call fails. -/
def allFail : Faults := ⟨false, fun _ => true⟩

/-- The tree with the single file `A/notes.md`. -/
def treeNotes : List Entry := [demoDir "A", demoFile "A/notes.md" "y"]

/-- A file content that begins with a front-matter block with the title "Hello". -/
def frontMatterNotes : Str :=
  "---".toList ++ newline :: "title: Hello".toList ++ newline :: "---".toList ++
    newline :: "text".toList

/-- The tree with `A/notes.md` and `A/sub/notes.md`. -/
def treeSameName : Tree :=
  some [demoDir "A", demoFile "A/notes.md" "one", demoDir "A/sub",
    demoFile "A/sub/notes.md" "two"]

/-- The key of a document: its collection and its url. -/
def postKey (d : Post) : Str × Str := (d.collection, d.url)

/-- No two documents of the store have the same (collection, url). -/
def UniqueKeys (store : Store) : Prop := (store.map postKey).Nodup

instance (store : Store) : Decidable (UniqueKeys store) := by
  unfold UniqueKeys; infer_instance

/-- The tree of the example scenario: `A/index.md` and `A/notes.md`. -/
def treeIndexNotes : Tree :=
  some [demoDir "A", demoFile "A/index.md" "# Welcome", demoFile "A/notes.md" "# Notes"]

/-- The tree of the example scenario after `A/notes.md` was removed. -/
def treeIndexOnly : Tree := some [demoDir "A", demoFile "A/index.md" "# Welcome"]

/-- The index document of the example scenario. -/
def welcomePost : Post :=
  ⟨"index".toList, "# Welcome".toList, "content-A-index".toList, "content/A".toList, true⟩

/-- The document of `A/notes.md` in the example scenario. -/
def notesDoc : Post :=
  ⟨"notes".toList, "# Notes".toList, "notes".toList, "content/A".toList, false⟩

/-- The tree with the single file `A/x.md`. -/
def treeFileX : Tree := some [demoDir "A", demoFile "A/x.md" "y"]

/-- The tree in which a directory has taken the name `A/x.md`. -/
def treeDirX : Tree := some [demoDir "A", demoDir "A/x.md"]

/-- The tree with the unreadable `a.md` and the readable `b.md`. -/
def treeLocked : Tree := some [lockedFile "a.md", demoFile "b.md" "text"]

/-- The tree with the directory `D`, for which the walk reports an error (it cannot be
listed), and the readable `a.md`. -/
def treeUnlisted : Tree := some [⟨"D".toList, true, none, true⟩, demoFile "a.md" "text"]

/-- A content whose front-matter title is the file name `notes` and whose body has a
heading. -/
def frontMatterSameTitle : Str :=
  "---".toList ++ newline :: "title: notes".toList ++ newline :: "---".toList ++
    newline :: "# Heading".toList

/-- A line that processCrossReferences does not rewrite: it contains neither "](./" nor
"](.md)", and not both "](/post/" and ".md)". -/
def settledLine (l : Str) : Bool :=
  !contains l "](./".toList && !contains l "](.md)".toList &&
    !(contains l "](/post/".toList && contains l ".md)".toList)

/-- The document belongs to a tracked collection that the scan did not see: one of the
collections that the loop over `collectionDirs` deletes. -/
def removedCollection (currentCollections collectionDirs : List Str) (p : Post) : Bool :=
  collectionDirs.any (fun c =>
    decide (c ∉ currentCollections) && decide (p.collection = "content/".toList ++ c))

/-- The run in which the database connection and every driver call work. -/
def Faults.working (faults : Faults) : Prop :=
  faults.connectFails = false ∧ ∀ op, faults.opFails op = false

/-! ## Theorems -/

/-! ### Go strings -/

theorem trimPrefix_append (p s : Str) : trimPrefix (p ++ s) p = s := by
  unfold trimPrefix hasPrefix
  have h : p.isPrefixOf (p ++ s) = true := List.isPrefixOf_iff_prefix.mpr (List.prefix_append p s)
  rw [if_pos h, List.drop_left]

theorem splitAux_append (sep : Char) (c rest cur : Str) (h : sep ∉ c) :
    splitAux sep (c ++ sep :: rest) cur = (cur.reverse ++ c) :: splitAux sep rest [] := by
  induction c generalizing cur with
  | nil => simp [splitAux]
  | cons x xs ih =>
    have hx : x ≠ sep := fun hx => h (hx ▸ List.mem_cons_self _ _)
    have hxs : sep ∉ xs := fun hm => h (List.mem_cons_of_mem _ hm)
    have step : splitAux sep (x :: (xs ++ sep :: rest)) cur
        = splitAux sep (xs ++ sep :: rest) (x :: cur) := by
      simp only [splitAux, hx, if_false]
    rw [List.cons_append, step, ih (x :: cur) hxs]
    simp

/-- The first piece of a path that starts with a directory name. -/
theorem split_head (c rest : Str) (h : '/' ∉ c) :
    (split (c ++ '/' :: rest) '/').headD [] = c := by
  unfold split
  rw [splitAux_append '/' c rest [] h]
  simp

/-- The collection that deletePostFromDB derives for a path below a first-level directory
`c` of the sync root is "content/" followed by `c`. -/
theorem deleteKey_collection (env : Env) (c rest : Str) (h : '/' ∉ c) :
    (deleteKey env (env.syncDir ++ '/' :: (c ++ '/' :: rest))).1 = "content/".toList ++ c := by
  have hp : env.syncDir ++ '/' :: (c ++ '/' :: rest)
      = (env.syncDir ++ "/".toList) ++ (c ++ '/' :: rest) := by simp
  simp only [deleteKey]
  rw [hp, trimPrefix_append, split_head c rest h]

/-! ### The path mapping -/

theorem replaceAll_single (a b : Char) (s : Str) :
    replaceAll s [a] [b] = s.map (fun c => if c = a then b else c) := by
  unfold replaceAll
  induction s with
  | nil => rfl
  | cons c cs ih =>
    by_cases h : c = a
    · subst h
      simp [replaceAllAux, ih]
    · have h2 : ¬ a = c := fun e => h e.symm
      simp [replaceAllAux, h, h2, ih]

theorem splitAux_ne_nil (sep : Char) (s cur : Str) : splitAux sep s cur ≠ [] := by
  induction s generalizing cur with
  | nil => simp [splitAux]
  | cons c cs ih =>
    unfold splitAux
    split
    · simp
    · exact ih _

theorem splitAux_nosep (sep : Char) (s cur : Str) (h : sep ∉ s) :
    splitAux sep s cur = [cur.reverse ++ s] := by
  induction s generalizing cur with
  | nil => simp [splitAux]
  | cons c cs ih =>
    have hc : c ≠ sep := fun e => h (e ▸ List.mem_cons_self _ _)
    have hcs : sep ∉ cs := fun hm => h (List.mem_cons_of_mem _ hm)
    simp only [splitAux, hc, if_false]
    rw [ih _ hcs]
    simp

theorem split_nosep (sep : Char) (s : Str) (h : sep ∉ s) : split s sep = [s] := by
  unfold split
  rw [splitAux_nosep sep s [] h]
  simp

theorem split_cons (sep : Char) (c rest : Str) (h : sep ∉ c) :
    split (c ++ sep :: rest) sep = c :: split rest sep := by
  unfold split
  rw [splitAux_append sep c rest [] h]
  simp

theorem join_splitAux (sep : Char) (s cur : Str) :
    join (splitAux sep s cur) sep = cur.reverse ++ s := by
  induction s generalizing cur with
  | nil => simp [splitAux, join, List.intercalate]
  | cons c cs ih =>
    unfold splitAux
    split
    · rename_i hc
      have := ih []
      obtain ⟨x, l, hx⟩ := List.exists_cons_of_ne_nil (splitAux_ne_nil sep cs [])
      rw [hx] at this ⊢
      simp only [join, List.intercalate] at this ⊢
      simp [List.intersperse, hc] at this ⊢
      rw [this]
    · rw [ih]; simp

theorem join_split (sep : Char) (s : Str) : join (split s sep) sep = s := by
  unfold split
  rw [join_splitAux]
  rfl

/-- The first separator of a path cuts it into its first component and the rest. -/
theorem exists_first_component (rel : Str) (h : '/' ∈ rel) :
    ∃ c rest : Str, '/' ∉ c ∧ rel = c ++ '/' :: rest := by
  induction rel with
  | nil => simp at h
  | cons x xs ih =>
    by_cases hx : x = '/'
    · exact ⟨[], xs, by simp, by simp [hx]⟩
    · have hxs : '/' ∈ xs := by
        rcases List.mem_cons.mp h with h1 | h1
        · exact absurd h1.symm hx
        · exact h1
      obtain ⟨c, rest, hc, hr⟩ := ih hxs
      refine ⟨x :: c, rest, ?_, by simp [hr]⟩
      intro hm
      rcases List.mem_cons.mp hm with h1 | h1
      · exact hx h1.symm
      · exact hc h1

theorem autoSyncCollection_root (rel : Str) (h : '/' ∉ rel) :
    autoSyncCollection rel = ("content/root".toList, rel) := by
  unfold autoSyncCollection
  rw [split_nosep '/' rel h]
  rfl

theorem autoSyncCollection_dir (c rest : Str) (h : '/' ∉ c) :
    autoSyncCollection (c ++ '/' :: rest) = ("content/".toList ++ c, rest) := by
  unfold autoSyncCollection
  rw [split_cons '/' c rest h]
  obtain ⟨x, l, hx⟩ := List.exists_cons_of_ne_nil (splitAux_ne_nil '/' rest [])
  have hl : (c :: split rest '/').length ≠ 1 := by
    unfold split; rw [hx]; simp
  simp only [hl, if_false, List.headD_cons, List.tail_cons, join_split]

/-- The url that autoSyncFromContent builds from the title of a file that is not an index
file. -/
theorem slug_of_title (title : Str) :
    replaceAll (toLower (replaceAll title " ".toList "-".toList)) "_".toList "-".toList
      = title.map slugChar := by
  have e1 : " ".toList = [' '] := rfl
  have e2 : "-".toList = ['-'] := rfl
  have e3 : "_".toList = ['_'] := rfl
  rw [e1, e2, e3, replaceAll_single, toLower, replaceAll_single, List.map_map, List.map_map]
  rfl

theorem autoSyncPost_eq (env : Env) (rel contentBytes : Str) :
    autoSyncPost env rel contentBytes =
      { title := trimSuffix (filepathBase (autoSyncCollection rel).2) ".md".toList,
        url := if isIndexName (filepathBase (autoSyncCollection rel).2) then
            (autoSyncCollection rel).1.map (fun c => if c = '/' then '-' else c) ++ "-index".toList
          else (trimSuffix (filepathBase (autoSyncCollection rel).2) ".md".toList).map slugChar,
        body := env.processPlantUML contentBytes
          (trimPrefix (autoSyncCollection rel).1 "content/".toList),
        collection := (autoSyncCollection rel).1,
        isIndex := isIndexName (filepathBase (autoSyncCollection rel).2) } := by
  have e1 : "/".toList = ['/'] := rfl
  have e2 : "-".toList = ['-'] := rfl
  unfold autoSyncPost isIndexName
  simp only [slug_of_title]
  rw [e1, e2, replaceAll_single]

/-! ### The calls of each loop -/

theorem deleteCollections_rank (faults : Faults) (cur : List Str) (l : List Str)
    (store : Store) :
    ∀ c ∈ (deleteCollections faults cur l store).calls, opRank c.1 = 0 := by
  induction l generalizing store with
  | nil => intro c hc; simp [deleteCollections] at hc
  | cons x rest ih =>
    intro c hc
    unfold deleteCollections at hc
    split at hc
    · exact ih _ c hc
    · simp only at hc
      split at hc
      · exact ih _ c hc
      · split at hc
        · simp only [List.mem_cons] at hc
          rcases hc with rfl | hc
          · rfl
          · exact ih _ c hc
        · simp only [List.mem_cons] at hc
          rcases hc with rfl | hc
          · rfl
          · exact ih _ c hc

theorem deletePostFromDB_rank (env : Env) (faults : Faults) (store : Store) (filePath : Str) :
    ∀ c ∈ (deletePostFromDB env faults store filePath).2.1, opRank c.1 = 1 := by
  intro c hc
  unfold deletePostFromDB at hc
  simp only at hc
  split at hc
  · simp at hc
  · split at hc
    · simp only [List.mem_singleton] at hc; subst hc; rfl
    · simp only [List.mem_singleton] at hc; subst hc; rfl

theorem deleteFiles_rank (env : Env) (faults : Faults) (tree : Tree) (m : List (Str × Str))
    (store : Store) :
    ∀ c ∈ (deleteFiles env faults tree m store).2.calls, opRank c.1 = 1 := by
  induction m generalizing store with
  | nil => intro c hc; simp [deleteFiles] at hc
  | cons x rest ih =>
    obtain ⟨path, h⟩ := x
    intro c hc
    unfold deleteFiles at hc
    split at hc
    · simp only [List.mem_append] at hc
      rcases hc with hc | hc
      · exact deletePostFromDB_rank env faults store path c hc
      · exact ih _ c hc
    · exact ih _ c hc

theorem autoSyncWalk_rank (env : Env) (faults : Faults) (es : List Entry) (store : Store) :
    ∀ c ∈ (autoSyncWalk env faults es store).calls, opRank c.1 = 2 := by
  induction es generalizing store with
  | nil => intro c hc; simp [autoSyncWalk] at hc
  | cons e rest ih =>
    intro c hc
    unfold autoSyncWalk at hc
    split at hc
    · simp at hc
    · split at hc
      · exact ih _ c hc
      · split at hc
        · exact ih _ c hc
        · split at hc
          · simp at hc
          · simp only at hc
            split at hc
            · simp only [List.mem_cons] at hc
              rcases hc with rfl | hc
              · rfl
              · exact ih _ c hc
            · simp only [List.mem_cons] at hc
              rcases hc with rfl | hc
              · rfl
              · exact ih _ c hc

theorem autoSyncFromContent_rank (env : Env) (faults : Faults) (tree : Tree) (store : Store) :
    ∀ c ∈ (autoSyncFromContent env faults tree store).calls, opRank c.1 = 2 := by
  cases tree with
  | none => intro c hc; simp [autoSyncFromContent] at hc
  | some es => exact autoSyncWalk_rank env faults es store

/-- The calls of a tick: those of the collection loop, of the file loop, and of
autoSyncFromContent when it ran. -/
theorem watchCycle_calls (env : Env) (faults : Faults) (tree : Tree) (st : WatchState)
    (store : Store) (clients : Registry) :
    ∃ l3 : List Call,
      (watchCycle env faults tree st store clients).calls =
        (deleteCollections faults (scanTree env tree ⟨false, st.fileHashes, []⟩).currentCollections
            st.collectionDirs store).calls ++
        (deleteFiles env faults tree (scanTree env tree ⟨false, st.fileHashes, []⟩).fileHashes
            (deleteCollections faults
              (scanTree env tree ⟨false, st.fileHashes, []⟩).currentCollections
              st.collectionDirs store).store).2.calls ++ l3 ∧
      ∀ c ∈ l3, opRank c.1 = 2 := by
  unfold watchCycle
  simp only
  split
  · split
    · exact ⟨_, rfl, autoSyncFromContent_rank _ _ _ _⟩
    · exact ⟨_, rfl, autoSyncFromContent_rank _ _ _ _⟩
  · exact ⟨[], by simp, by simp⟩

theorem UpsertPost_cases (b : Bool) (store : Store) (post : Post) :
    (b = true ∧ UpsertPost b store post "124252".toList = .error .driver) ∨
    (b = false ∧ ∃ s1, UpsertPost b store post "124252".toList = .ok s1) := by
  cases b with
  | true => exact Or.inl ⟨rfl, by simp [UpsertPost]⟩
  | false =>
    refine Or.inr ⟨rfl, ?_⟩
    by_cases h : store.any (matchesKey post.collection post.url) = true
    · exact ⟨setFirst post store, by simp [UpsertPost, h]⟩
    · exact ⟨store ++ [post], by simp [UpsertPost, h]⟩

theorem autoSyncWalk_all (env : Env) (faults : Faults) (es : List Entry) (store : Store)
    (hread : ∀ e ∈ es, e.walkErr = false ∧ (isMarkdown e = true → e.content.isSome = true)) :
    (autoSyncWalk env faults es store).err = false ∧
    (autoSyncWalk env faults es store).calls =
      (derivedPosts env (some es)).map
        (fun p => (StoreOp.upsertPost p, !faults.opFails (.upsertPost p))) := by
  induction es generalizing store with
  | nil => exact ⟨rfl, rfl⟩
  | cons e rest ih =>
    have hrest : ∀ x ∈ rest, x.walkErr = false ∧ (isMarkdown x = true → x.content.isSome = true) :=
      fun x hx => hread x (List.mem_cons_of_mem _ hx)
    obtain ⟨hw, hc⟩ := hread e (List.mem_cons_self _ _)
    have ihd : ∀ st1, (autoSyncWalk env faults rest st1).calls =
        (rest.filterMap (fun e =>
          if isMarkdown e then e.content.map (autoSyncPost env e.rel) else none)).map
          (fun p => (StoreOp.upsertPost p, !faults.opFails (.upsertPost p))) :=
      fun st1 => (ih st1 hrest).2
    unfold autoSyncWalk
    simp only [derivedPosts, hw, Bool.false_eq_true, if_false, List.filterMap_cons]
    by_cases hd : e.isDir = true
    · have hm : isMarkdown e = false := by simp only [isMarkdown, hd, Bool.not_true, Bool.false_and]
      simp only [hd, if_true, hm, Bool.false_eq_true, if_false]
      exact ⟨(ih store hrest).1, ihd store⟩
    · simp only [Bool.not_eq_true] at hd
      by_cases hs : hasSuffix (toLower e.name) ".md".toList = true
      · have hm : isMarkdown e = true := by
          simp only [isMarkdown, hd, hs, Bool.not_false, Bool.and_self]
        obtain ⟨bytes, hb⟩ := Option.isSome_iff_exists.mp (hc hm)
        simp only [hd, hs, Bool.not_true, Bool.false_eq_true, if_false, hb, hm, if_true,
          Option.map_some', List.map_cons]
        rcases UpsertPost_cases (faults.opFails (.upsertPost (autoSyncPost env e.rel bytes)))
          store (autoSyncPost env e.rel bytes) with ⟨hf, hu⟩ | ⟨hf, s1, hu⟩
        · rw [hu]
          simp only [hf, Bool.not_true]
          exact ⟨(ih store hrest).1, by rw [ihd]⟩
        · rw [hu]
          simp only [hf, Bool.not_false]
          exact ⟨(ih s1 hrest).1, by rw [ihd]⟩
      · simp only [Bool.not_eq_true] at hs
        have hm : isMarkdown e = false := by
          simp only [isMarkdown, hs, Bool.and_false]
        simp only [hd, Bool.false_eq_true, if_false, hs, Bool.not_false, if_true, hm]
        exact ⟨(ih store hrest).1, ihd store⟩

/-! ### The scan -/

theorem scanVisit_eq (env : Env) (sc : Scan) (e : Entry) :
    scanVisit env sc e =
      ⟨(visitHashes env (sc.changed, sc.fileHashes) e).1,
       (visitHashes env (sc.changed, sc.fileHashes) e).2,
       visitCollections env sc.currentCollections e⟩ := by
  obtain ⟨ch, m, cc⟩ := sc
  unfold scanVisit visitHashes trackable visitCollections
  by_cases hw : e.walkErr = true
  · simp only [hw, if_true]
  · simp only [Bool.not_eq_true] at hw
    simp only [hw, Bool.false_eq_true, if_false]
    by_cases hd : e.isDir = true
    · simp only [hd, if_true, Bool.true_and]
      split
      · split <;> rfl
      · rfl
    · simp only [Bool.not_eq_true] at hd
      simp only [hd, Bool.false_and, Bool.false_eq_true, if_false]
      by_cases hs : hasSuffix (toLower (walkPath env e)) ".md".toList = true
      · simp only [hs, Bool.not_true, Bool.false_eq_true, if_false]
        cases hh : hashFile env e with
        | none => rfl
        | some h =>
          simp only
          cases hg : mapGet m (walkPath env e) with
          | none => simp only [reduceCtorEq, if_false]
          | some prev =>
            simp only [Option.some.injEq]
            by_cases hp : prev = h
            · simp only [hp, ne_eq, not_true_eq_false, if_false, if_true]
            · simp only [hp, ne_eq, not_false_eq_true, if_true, if_false]
      · simp only [Bool.not_eq_true] at hs
        simp only [hs, Bool.not_false, if_true]

theorem scanFold_eq (env : Env) (es : List Entry) (sc : Scan) :
    es.foldl (scanVisit env) sc =
      ⟨(es.foldl (visitHashes env) (sc.changed, sc.fileHashes)).1,
       (es.foldl (visitHashes env) (sc.changed, sc.fileHashes)).2,
       es.foldl (visitCollections env) sc.currentCollections⟩ := by
  induction es generalizing sc with
  | nil => rfl
  | cons e rest ih =>
    simp only [List.foldl_cons]
    rw [ih, scanVisit_eq]

theorem scanTree_collections (env : Env) (tree : Tree) (ch : Bool) (m : List (Str × Str)) :
    (scanTree env tree ⟨ch, m, []⟩).currentCollections = collectionsOf env tree := by
  cases tree with
  | none => rfl
  | some es =>
    simp only [collectionsOf, scanTree]
    rw [scanFold_eq, scanFold_eq env es ⟨false, [], []⟩]

/-! ### The tracked map -/

theorem mapGet_mapSet_same (m : List (Str × Str)) (k v : Str) :
    mapGet (mapSet m k v) k = some v := by
  induction m with
  | nil => simp [mapSet, mapGet]
  | cons x rest ih =>
    obtain ⟨k1, v1⟩ := x
    by_cases h : k1 = k
    · simp [mapSet, mapGet, h]
    · simp [mapSet, mapGet, h, ih]

theorem mapGet_mapSet_other (m : List (Str × Str)) (k v p : Str) (hp : k ≠ p) :
    mapGet (mapSet m k v) p = mapGet m p := by
  induction m with
  | nil => simp [mapSet, mapGet, hp]
  | cons x rest ih =>
    obtain ⟨k1, v1⟩ := x
    by_cases h : k1 = k
    · subst h; simp [mapSet, mapGet, hp]
    · by_cases h1 : k1 = p
      · subst h1; simp [mapSet, mapGet, h]
      · simp [mapSet, mapGet, h, h1, ih]

theorem mem_keys_mapSet (m : List (Str × Str)) (k v p : Str) (hp : p ∈ m.map Prod.fst) :
    p ∈ (mapSet m k v).map Prod.fst := by
  induction m with
  | nil => simp at hp
  | cons x rest ih =>
    obtain ⟨k1, v1⟩ := x
    simp only [List.map_cons, List.mem_cons] at hp
    by_cases h : k1 = k
    · simp only [mapSet, h, if_true, List.map_cons, List.mem_cons]
      rcases hp with hp | hp
      · exact Or.inl (hp.trans h)
      · exact Or.inr hp
    · simp only [mapSet, h, if_false, List.map_cons, List.mem_cons]
      rcases hp with hp | hp
      · exact Or.inl hp
      · exact Or.inr (ih hp)

theorem mapGet_filter (m : List (Str × Str)) (f : Str → Bool) (p : Str) (hp : f p = true) :
    mapGet (m.filter (fun kv => f kv.1)) p = mapGet m p := by
  induction m with
  | nil => rfl
  | cons x rest ih =>
    obtain ⟨k1, v1⟩ := x
    by_cases h : k1 = p
    · subst h; simp [List.filter, hp, mapGet]
    · by_cases hf : f k1 = true
      · simp [List.filter, hf, mapGet, h, ih]
      · simp only [Bool.not_eq_true] at hf
        simp [List.filter, hf, mapGet, h, ih]

theorem visitHashes_other (env : Env) (s : Bool × List (Str × Str)) (e : Entry) (p : Str)
    (hp : walkPath env e ≠ p) :
    mapGet (visitHashes env s e).2 p = mapGet s.2 p := by
  unfold visitHashes
  split
  · rfl
  · split
    · rfl
    · exact mapGet_mapSet_other _ _ _ _ hp

theorem visitHashes_self (env : Env) (s : Bool × List (Str × Str)) (e : Entry) (h : Str)
    (he : trackable env e = some h) :
    mapGet (visitHashes env s e).2 (walkPath env e) = some h := by
  unfold visitHashes
  rw [he]
  simp only
  split
  · assumption
  · exact mapGet_mapSet_same _ _ _

theorem visitHashes_keys (env : Env) (s : Bool × List (Str × Str)) (e : Entry) (p : Str)
    (hp : p ∈ s.2.map Prod.fst) : p ∈ (visitHashes env s e).2.map Prod.fst := by
  unfold visitHashes
  split
  · exact hp
  · split
    · exact hp
    · exact mem_keys_mapSet _ _ _ _ hp

theorem foldHashes_other (env : Env) (es : List Entry) (s : Bool × List (Str × Str)) (p : Str)
    (hp : ∀ e ∈ es, walkPath env e ≠ p) :
    mapGet (es.foldl (visitHashes env) s).2 p = mapGet s.2 p := by
  induction es generalizing s with
  | nil => rfl
  | cons e rest ih =>
    simp only [List.foldl_cons]
    rw [ih _ (fun x hx => hp x (List.mem_cons_of_mem _ hx))]
    exact visitHashes_other env s e p (hp e (List.mem_cons_self _ _))

theorem foldHashes_keys (env : Env) (es : List Entry) (s : Bool × List (Str × Str)) (p : Str)
    (hp : p ∈ s.2.map Prod.fst) : p ∈ (es.foldl (visitHashes env) s).2.map Prod.fst := by
  induction es generalizing s with
  | nil => exact hp
  | cons e rest ih =>
    simp only [List.foldl_cons]
    exact ih _ (visitHashes_keys env s e p hp)

theorem walkPath_injective (env : Env) (e1 e2 : Entry) (h : walkPath env e1 = walkPath env e2) :
    e1.rel = e2.rel := by
  unfold walkPath at h
  have h1 := List.append_cancel_left h
  exact (List.cons.inj h1).2

/-- After the scan of a tree without duplicate paths, every tracked entry of the tree has
its current digest in the map. -/
theorem foldHashes_tracks (env : Env) (es : List Entry) (s : Bool × List (Str × Str))
    (hnd : (es.map Entry.rel).Nodup) (e : Entry) (he : e ∈ es) (h : Str)
    (ht : trackable env e = some h) :
    mapGet (es.foldl (visitHashes env) s).2 (walkPath env e) = some h := by
  induction es generalizing s with
  | nil => simp at he
  | cons x rest ih =>
    simp only [List.map_cons, List.nodup_cons] at hnd
    simp only [List.foldl_cons]
    rcases List.mem_cons.mp he with rfl | hin
    · rw [foldHashes_other]
      · exact visitHashes_self env s e h ht
      · intro y hy hxy
        exact hnd.1 (List.mem_map.mpr ⟨y, hy, walkPath_injective env y e hxy⟩)
    · exact ih _ hnd.2 hin

/-- The scan changes nothing when every tracked entry already has its digest in the map. -/
theorem foldHashes_stable (env : Env) (es : List Entry) (s : Bool × List (Str × Str))
    (hs : ∀ e ∈ es, ∀ h, trackable env e = some h → mapGet s.2 (walkPath env e) = some h) :
    es.foldl (visitHashes env) s = s := by
  induction es with
  | nil => rfl
  | cons x rest ih =>
    simp only [List.foldl_cons]
    have hx : visitHashes env s x = s := by
      unfold visitHashes
      split
      · rfl
      · rename_i h hh
        rw [if_pos (hs x (List.mem_cons_self _ _) h hh)]
    rw [hx]
    exact ih (fun e he => hs e (List.mem_cons_of_mem _ he))

/-! ### The two deletion loops -/

theorem deleteCollections_noop (faults : Faults) (cur l : List Str) (store : Store)
    (h : ∀ c ∈ l, c ∈ cur) : deleteCollections faults cur l store = ⟨store, [], false⟩ := by
  induction l with
  | nil => rfl
  | cons x rest ih =>
    unfold deleteCollections
    rw [if_pos (h x (List.mem_cons_self _ _))]
    exact ih (fun c hc => h c (List.mem_cons_of_mem _ hc))

theorem deleteCollections_calls (faults : Faults) (cur l : List Str) (store : Store)
    (hconn : faults.connectFails = false) :
    (deleteCollections faults cur l store).calls.map Prod.fst =
      (l.filter (fun c => decide (c ∉ cur))).map
        (fun c => StoreOp.deleteCollection ("content/".toList ++ c)) := by
  induction l generalizing store with
  | nil => rfl
  | cons x rest ih =>
    unfold deleteCollections
    by_cases hx : x ∈ cur
    · rw [if_pos hx, List.filter_cons_of_neg (by simpa using hx)]
      exact ih store
    · rw [if_neg hx, List.filter_cons_of_pos (by simpa using hx)]
      simp only [hconn, Bool.false_eq_true, if_false, List.map_cons]
      split
      · simp only [List.map_cons, ih]
      · simp only [List.map_cons, ih]

theorem deletePostFromDB_calls (env : Env) (faults : Faults) (store : Store) (filePath : Str)
    (hconn : faults.connectFails = false) :
    (deletePostFromDB env faults store filePath).2.1.map Prod.fst =
      [StoreOp.deletePostByPath (deleteKey env filePath).1 (deleteKey env filePath).2] := by
  unfold deletePostFromDB
  simp only [hconn, Bool.false_eq_true, if_false]
  split <;> rfl

theorem deleteFiles_map (env : Env) (faults : Faults) (tree : Tree) (m : List (Str × Str))
    (store : Store) :
    (deleteFiles env faults tree m store).1 = m.filter (fun kv => !notExist env tree kv.1) := by
  induction m generalizing store with
  | nil => rfl
  | cons x rest ih =>
    obtain ⟨path, h⟩ := x
    unfold deleteFiles
    by_cases hx : notExist env tree path = true
    · rw [if_pos hx, List.filter_cons_of_neg (by simp [hx])]
      exact ih _
    · rw [if_neg hx, List.filter_cons_of_pos (by simpa using hx)]
      simp only [ih]

theorem deleteFiles_noop (env : Env) (faults : Faults) (tree : Tree) (m : List (Str × Str))
    (store : Store) (h : ∀ kv ∈ m, notExist env tree kv.1 = false) :
    deleteFiles env faults tree m store = (m, ⟨store, [], false⟩) := by
  induction m with
  | nil => rfl
  | cons x rest ih =>
    obtain ⟨path, hv⟩ := x
    unfold deleteFiles
    have hx : notExist env tree path = false := h (path, hv) (List.mem_cons_self _ _)
    simp only [hx, Bool.false_eq_true, if_false]
    rw [ih (fun kv hkv => h kv (List.mem_cons_of_mem _ hkv))]

theorem deleteFiles_calls (env : Env) (faults : Faults) (tree : Tree) (m : List (Str × Str))
    (store : Store) (hconn : faults.connectFails = false) :
    (deleteFiles env faults tree m store).2.calls.map Prod.fst =
      (m.filter (fun kv => notExist env tree kv.1)).map
        (fun kv => StoreOp.deletePostByPath (deleteKey env kv.1).1 (deleteKey env kv.1).2) := by
  induction m generalizing store with
  | nil => rfl
  | cons x rest ih =>
    obtain ⟨path, h⟩ := x
    unfold deleteFiles
    by_cases hx : notExist env tree path = true
    · rw [if_pos hx]
      simp only [List.filter_cons, hx, if_true, List.map_append, List.map_cons, ih,
        deletePostFromDB_calls env faults store path hconn, List.singleton_append]
    · rw [if_neg hx]
      simp only [List.filter_cons, hx, if_false]
      exact ih _

/-! ### The tick -/

theorem watchCycle_state (env : Env) (faults : Faults) (tree : Tree) (st : WatchState)
    (store : Store) (clients : Registry) :
    (watchCycle env faults tree st store clients).state =
      ⟨(scanTree env tree ⟨false, st.fileHashes, []⟩).fileHashes.filter
          (fun kv => !notExist env tree kv.1),
        collectionsOf env tree⟩ := by
  unfold watchCycle
  simp only [deleteFiles_map, scanTree_collections]
  split
  · split <;> rfl
  · rfl

/-- The state after a tick on a well-formed tree is settled on that tree. -/
theorem settled_after_cycle (env : Env) (faults : Faults) (tree : Tree) (st : WatchState)
    (store : Store) (clients : Registry) (hwf : tree.wf) :
    Settled env tree (watchCycle env faults tree st store clients).state := by
  rw [watchCycle_state]
  refine ⟨rfl, ?_, ?_⟩
  · intro kv hkv
    have := (List.mem_filter.mp hkv).2
    simpa using this
  · intro es htree e he h ht
    subst htree
    have hex : (fun p => !notExist env (some es) p) (walkPath env e) = true := by
      simp only [notExist, Bool.not_not, List.any_eq_true, decide_eq_true_eq]
      exact ⟨e, he, rfl⟩
    rw [mapGet_filter _ (fun p => !notExist env (some es) p) _ hex]
    simp only [scanTree]
    rw [scanFold_eq]
    exact foldHashes_tracks env es _ hwf e he h ht

/-- A tick from a settled state does nothing. -/
theorem cycle_of_settled (env : Env) (faults : Faults) (tree : Tree) (st : WatchState)
    (store : Store) (clients : Registry) (hs : Settled env tree st) :
    watchCycle env faults tree st store clients = ⟨st, store, clients, [], false, []⟩ := by
  obtain ⟨hc, hex, htr⟩ := hs
  have hscan : scanTree env tree ⟨false, st.fileHashes, []⟩ =
      ⟨false, st.fileHashes, collectionsOf env tree⟩ := by
    cases tree with
    | none => rfl
    | some es =>
      have hcc := scanTree_collections env (some es) false st.fileHashes
      simp only [scanTree] at hcc ⊢
      rw [scanFold_eq] at hcc ⊢
      simp only at hcc
      rw [foldHashes_stable env es (false, st.fileHashes) (htr es rfl), hcc]
  unfold watchCycle
  simp only [hscan]
  rw [deleteCollections_noop faults _ _ store (by rw [hc]; exact fun c h => h)]
  simp only
  rw [deleteFiles_noop env faults tree _ store hex]
  simp only [Bool.or_self, Bool.false_eq_true, if_false, ← hc]
  rfl

theorem scanTree_keys (env : Env) (tree : Tree) (sc : Scan) (p : Str)
    (hp : p ∈ sc.fileHashes.map Prod.fst) :
    p ∈ (scanTree env tree sc).fileHashes.map Prod.fst := by
  cases tree with
  | none => exact hp
  | some es =>
    simp only [scanTree]
    rw [scanFold_eq]
    exact foldHashes_keys env es _ p hp

theorem count_eq_zero_of_rank (l : List Call) (op : StoreOp)
    (h : ∀ c ∈ l, opRank c.1 ≠ opRank op) : (l.map Prod.fst).count op = 0 := by
  apply List.count_eq_zero_of_not_mem
  intro hmem
  obtain ⟨c, hc, rfl⟩ := List.mem_map.mp hmem
  exact h c hc rfl

theorem map_dash_noslash (c : Str) (h : '/' ∉ c) :
    c.map (fun x => if x = '/' then '-' else x) = c := by
  induction c with
  | nil => rfl
  | cons x xs ih =>
    have hx : x ≠ '/' := fun e => h (e ▸ List.mem_cons_self _ _)
    simp only [List.map_cons, hx, if_false]
    rw [ih (fun hm => h (List.mem_cons_of_mem _ hm))]

theorem trimSuffix_append (t p : Str) : trimSuffix (t ++ p) p = t := by
  unfold trimSuffix hasSuffix
  have h : p.isSuffixOf (t ++ p) = true := List.isSuffixOf_iff_suffix.mpr (List.suffix_append t p)
  rw [if_pos h]
  simp

theorem map_slugChar_plain (t : Str) (h : ∀ ch ∈ t, slugChar ch = ch) : t.map slugChar = t := by
  induction t with
  | nil => rfl
  | cons x xs ih =>
    simp only [List.map_cons, h x (List.mem_cons_self _ _)]
    rw [ih (fun ch hc => h ch (List.mem_cons_of_mem _ hc))]

/-! ### UpsertPost -/

theorem matchesKey_iff (c u : Str) (d : Post) :
    matchesKey c u d = true ↔ postKey d = (c, u) := by
  simp [matchesKey, postKey]

theorem filter_match_eq_nil (c u : Str) (ds : Store) (h : (c, u) ∉ ds.map postKey) :
    ds.filter (matchesKey c u) = [] := by
  rw [List.filter_eq_nil_iff]
  intro d hd hm
  exact h (List.mem_map.mpr ⟨d, hd, (matchesKey_iff c u d).mp hm⟩)

theorem setFirst_keys (p : Post) (store : Store) :
    (setFirst p store).map postKey = store.map postKey := by
  induction store with
  | nil => rfl
  | cons d ds ih =>
    unfold setFirst
    split
    · rename_i hm
      have hk := (matchesKey_iff _ _ d).mp hm
      simp only [postKey, Prod.mk.injEq] at hk
      simp only [List.map_cons, postKey, hk.1]
    · simp only [List.map_cons, ih]

theorem setFirst_length (p : Post) (store : Store) :
    (setFirst p store).length = store.length := by
  have := congrArg List.length (setFirst_keys p store)
  simpa using this

theorem setFirst_filter_other (p : Post) (store : Store) :
    (setFirst p store).filter (fun d => !matchesKey p.collection p.url d)
      = store.filter (fun d => !matchesKey p.collection p.url d) := by
  induction store with
  | nil => rfl
  | cons d ds ih =>
    unfold setFirst
    split
    · rename_i hm
      have hm1 : matchesKey p.collection p.url
          { d with title := p.title, body := p.body, collection := p.collection,
                   isIndex := p.isIndex } = true := by
        have hk := (matchesKey_iff _ _ d).mp hm
        simp only [postKey, Prod.mk.injEq] at hk
        simp [matchesKey, hk.2]
      simp only [List.filter_cons, hm, hm1, Bool.not_true, Bool.false_eq_true, if_false]
    · simp only [List.filter_cons, ih]

theorem setFirst_filter_match (p : Post) (store : Store) (hu : UniqueKeys store)
    (hany : store.any (matchesKey p.collection p.url) = true) :
    (setFirst p store).filter (matchesKey p.collection p.url) = [p] := by
  induction store with
  | nil => simp at hany
  | cons d ds ih =>
    unfold UniqueKeys at hu
    simp only [List.map_cons, List.nodup_cons] at hu
    unfold setFirst
    by_cases hm : matchesKey p.collection p.url d = true
    · have hk := (matchesKey_iff _ _ d).mp hm
      have hd : (⟨p.title, p.body, d.url, p.collection, p.isIndex⟩ : Post) = p := by
        simp only [postKey, Prod.mk.injEq] at hk
        rw [hk.2]
      rw [if_pos hm]
      show List.filter _ ((⟨p.title, p.body, d.url, p.collection, p.isIndex⟩ : Post) :: ds) = [p]
      rw [hd]
      have hp : matchesKey p.collection p.url p = true := by simp [matchesKey]
      rw [List.filter_cons_of_pos hp, filter_match_eq_nil _ _ ds (hk ▸ hu.1)]
    · have hany1 : ds.any (matchesKey p.collection p.url) = true := by
        simpa [hm] using hany
      rw [if_neg hm, List.filter_cons_of_neg hm]
      exact ih hu.2 hany1

/-! ### The tracked collections and the `changed` flag -/

theorem walkPath_ne_syncDir (env : Env) (e : Entry) : walkPath env e ≠ env.syncDir := by
  intro h
  have := congrArg List.length h
  simp [walkPath] at this

theorem split_length_pos (s : Str) (sep : Char) : 1 ≤ (split s sep).length := by
  unfold split
  obtain ⟨x, l, hx⟩ := List.exists_cons_of_ne_nil (splitAux_ne_nil sep s [])
  rw [hx]
  simp

theorem visitCollections_eq (env : Env) (cc : List Str) (e : Entry) :
    visitCollections env cc e =
      if e.walkErr = false ∧ e.isDir = true then setAdd cc ((split e.rel '/').headD []) else cc := by
  unfold visitCollections
  by_cases hw : e.walkErr = true
  · simp [hw]
  · simp only [Bool.not_eq_true] at hw
    by_cases hd : e.isDir = true
    · simp [hw, hd, walkPath_ne_syncDir, split_length_pos]
    · simp [hw, hd]

theorem mem_setAdd (s : List Str) (k c : Str) : c ∈ setAdd s k ↔ c ∈ s ∨ c = k := by
  unfold setAdd
  split
  · rename_i h
    constructor
    · exact Or.inl
    · rintro (h1 | h1)
      · exact h1
      · exact h1 ▸ h
  · simp

theorem nodup_setAdd (s : List Str) (k : Str) (h : s.Nodup) : (setAdd s k).Nodup := by
  unfold setAdd
  split
  · exact h
  · rename_i hk
    rw [List.nodup_append]
    refine ⟨h, by simp, ?_⟩
    intro a ha hb
    simp only [List.mem_singleton] at hb
    exact hk (hb ▸ ha)

theorem mem_foldCollections (env : Env) (es : List Entry) (cc : List Str) (c : Str) :
    c ∈ es.foldl (visitCollections env) cc ↔
      c ∈ cc ∨ ∃ e ∈ es, e.walkErr = false ∧ e.isDir = true ∧ (split e.rel '/').headD [] = c := by
  induction es generalizing cc with
  | nil => simp
  | cons x rest ih =>
    simp only [List.foldl_cons]
    rw [ih, visitCollections_eq]
    by_cases hx : x.walkErr = false ∧ x.isDir = true
    · rw [if_pos hx, mem_setAdd]
      constructor
      · rintro ((h | h) | ⟨e, he, h⟩)
        · exact Or.inl h
        · exact Or.inr ⟨x, List.mem_cons_self _ _, hx.1, hx.2, h.symm⟩
        · exact Or.inr ⟨e, List.mem_cons_of_mem _ he, h⟩
      · rintro (h | ⟨e, he, h⟩)
        · exact Or.inl (Or.inl h)
        · rcases List.mem_cons.mp he with rfl | he
          · exact Or.inl (Or.inr h.2.2.symm)
          · exact Or.inr ⟨e, he, h⟩
    · rw [if_neg hx]
      constructor
      · rintro (h | ⟨e, he, h⟩)
        · exact Or.inl h
        · exact Or.inr ⟨e, List.mem_cons_of_mem _ he, h⟩
      · rintro (h | ⟨e, he, h⟩)
        · exact Or.inl h
        · rcases List.mem_cons.mp he with rfl | he
          · exact absurd ⟨h.1, h.2.1⟩ hx
          · exact Or.inr ⟨e, he, h⟩

theorem nodup_foldCollections (env : Env) (es : List Entry) (cc : List Str) (h : cc.Nodup) :
    (es.foldl (visitCollections env) cc).Nodup := by
  induction es generalizing cc with
  | nil => exact h
  | cons x rest ih =>
    simp only [List.foldl_cons]
    apply ih
    rw [visitCollections_eq]
    split
    · exact nodup_setAdd _ _ h
    · exact h

theorem collectionsOf_some (env : Env) (es : List Entry) :
    collectionsOf env (some es) = es.foldl (visitCollections env) [] := by
  simp only [collectionsOf, scanTree]
  rw [scanFold_eq]

theorem visitHashes_flag (env : Env) (s : Bool × List (Str × Str)) (e : Entry)
    (h : s.1 = true) : (visitHashes env s e).1 = true := by
  unfold visitHashes
  split
  · exact h
  · split
    · exact h
    · rfl

theorem foldHashes_flag (env : Env) (es : List Entry) (s : Bool × List (Str × Str))
    (h : s.1 = true) : (es.foldl (visitHashes env) s).1 = true := by
  induction es generalizing s with
  | nil => exact h
  | cons x rest ih =>
    simp only [List.foldl_cons]
    exact ih _ (visitHashes_flag env s x h)

/-- The scan sets `changed` when a tracked entry of the tree has a digest that is not the
one in the map. -/
theorem foldHashes_detects (env : Env) (es : List Entry) (s : Bool × List (Str × Str))
    (hnd : (es.map Entry.rel).Nodup) (e : Entry) (he : e ∈ es) (h : Str)
    (ht : trackable env e = some h) (hne : mapGet s.2 (walkPath env e) ≠ some h) :
    (es.foldl (visitHashes env) s).1 = true := by
  induction es generalizing s with
  | nil => simp at he
  | cons x rest ih =>
    simp only [List.map_cons, List.nodup_cons] at hnd
    simp only [List.foldl_cons]
    rcases List.mem_cons.mp he with rfl | hin
    · apply foldHashes_flag
      unfold visitHashes
      rw [ht]
      simp only [hne, if_false]
    · apply ih _ hnd.2 hin
      rw [visitHashes_other]
      · exact hne
      · intro hxy
        exact hnd.1 (List.mem_map.mpr ⟨e, hin, (walkPath_injective env x e hxy).symm⟩)

theorem deleteFiles_changed (env : Env) (faults : Faults) (tree : Tree)
    (m : List (Str × Str)) (store : Store) (kv : Str × Str) (hkv : kv ∈ m)
    (hne : notExist env tree kv.1 = true) :
    (deleteFiles env faults tree m store).2.changed = true := by
  induction m generalizing store with
  | nil => simp at hkv
  | cons x rest ih =>
    obtain ⟨path, h⟩ := x
    unfold deleteFiles
    by_cases hx : notExist env tree path = true
    · rw [if_pos hx]
    · rw [if_neg hx]
      rcases List.mem_cons.mp hkv with rfl | hin
      · exact absurd hne hx
      · exact ih _ hin

theorem deleteCollections_changed (faults : Faults) (cur l : List Str) (store : Store)
    (c : Str) (hc : c ∈ l) (hgone : c ∉ cur) (hconn : faults.connectFails = false)
    (hop : faults.opFails (.deleteCollection ("content/".toList ++ c)) = false) :
    (deleteCollections faults cur l store).changed = true := by
  induction l generalizing store with
  | nil => simp at hc
  | cons x rest ih =>
    unfold deleteCollections
    rcases List.mem_cons.mp hc with rfl | hin
    · rw [if_neg hgone]
      simp only [hconn, Bool.false_eq_true, if_false, hop, DeleteCollection]
    · split
      · exact ih _ hin
      · simp only [hconn, Bool.false_eq_true, if_false]
        split
        · exact ih _ hin
        · rfl

/-- A tick whose `changed` flag is set broadcasts "reload" when every .md file of the tree
can be read. -/
theorem watchCycle_reload (env : Env) (faults : Faults) (es : List Entry) (st : WatchState)
    (store : Store) (clients : Registry)
    (hread : ∀ e ∈ es, e.walkErr = false ∧ (isMarkdown e = true → e.content.isSome = true))
    (hch : ((scanTree env (some es) ⟨false, st.fileHashes, []⟩).changed ||
      (deleteCollections faults (scanTree env (some es) ⟨false, st.fileHashes, []⟩).currentCollections
        st.collectionDirs store).changed ||
      (deleteFiles env faults (some es) (scanTree env (some es) ⟨false, st.fileHashes, []⟩).fileHashes
        (deleteCollections faults
          (scanTree env (some es) ⟨false, st.fileHashes, []⟩).currentCollections
          st.collectionDirs store).store).2.changed) = true) :
    (watchCycle env faults (some es) st store clients).changed = true ∧
    (watchCycle env faults (some es) st store clients).broadcasts = ["reload".toList] ∧
    (watchCycle env faults (some es) st store clients).clients
      = broadcastChange clients "reload".toList := by
  unfold watchCycle
  simp only [hch, if_true]
  have herr : ∀ s0, (autoSyncFromContent env faults (some es) s0).err = false :=
    fun s0 => (autoSyncWalk_all env faults es s0 hread).1
  simp only [herr, Bool.false_eq_true, if_false, and_self]

/-! ### The dash-collapsing loop -/

theorem mem_replaceAllAux (old new : Str) (k : Nat) (s : Str) (c : Char)
    (h : c ∈ replaceAllAux old new k s) : c ∈ s ∨ c ∈ new := by
  induction s generalizing k with
  | nil => simp [replaceAllAux] at h
  | cons x xs ih =>
    cases k with
    | succ k =>
      simp only [replaceAllAux] at h
      rcases ih k h with h1 | h1
      · exact Or.inl (List.mem_cons_of_mem _ h1)
      · exact Or.inr h1
    | zero =>
      simp only [replaceAllAux] at h
      split at h
      · rcases List.mem_append.mp h with h1 | h1
        · exact Or.inr h1
        · rcases ih _ h1 with h2 | h2
          · exact Or.inl (List.mem_cons_of_mem _ h2)
          · exact Or.inr h2
      · rcases List.mem_cons.mp h with h1 | h1
        · exact Or.inl (h1 ▸ List.mem_cons_self _ _)
        · rcases ih _ h1 with h2 | h2
          · exact Or.inl (List.mem_cons_of_mem _ h2)
          · exact Or.inr h2

theorem length_replaceAllAux_dash (k : Nat) (s : Str) :
    (replaceAllAux "--".toList "-".toList k s).length ≤ s.length - k := by
  induction s generalizing k with
  | nil => simp [replaceAllAux]
  | cons x xs ih =>
    cases k with
    | succ k =>
      simp only [replaceAllAux, List.length_cons]
      have := ih k
      omega
    | zero =>
      simp only [replaceAllAux]
      split
      · have e1 : "--".toList.length - 1 = 1 := rfl
        have e2 : "-".toList.length = 1 := rfl
        have := ih 1
        simp only [e1, List.length_append, List.length_cons, e2]
        omega
      · have := ih 0
        simp only [List.length_cons]
        omega

theorem length_replaceAll_dash_lt (s : Str) (h : contains s "--".toList = true) :
    (replaceAll s "--".toList "-".toList).length < s.length := by
  unfold replaceAll
  induction s with
  | nil => simp [contains] at h
  | cons x xs ih =>
    simp only [replaceAllAux]
    split
    · rename_i hp
      have hl : 1 ≤ xs.length := by
        cases xs with
        | nil => simp at hp
        | cons y ys => simp
      have e1 : "--".toList.length - 1 = 1 := rfl
      have e2 : "-".toList.length = 1 := rfl
      have := length_replaceAllAux_dash 1 xs
      simp only [e1, List.length_append, List.length_cons, e2]
      omega
    · rename_i hp
      have hc : contains xs "--".toList = true := by
        simp only [contains, Bool.or_eq_true] at h
        rcases h with h | h
        · exact absurd h hp
        · exact h
      have := ih hc
      simp only [List.length_cons]
      omega

theorem contains_nil_dash : contains [] "--".toList = false := rfl

/-- The loop ends without "--" as soon as its bound is at least the length of the text. -/
theorem collapseLoop_clean (n : Nat) (s : Str) (h : s.length ≤ n) :
    contains (collapseLoop n s) "--".toList = false := by
  induction n generalizing s with
  | zero =>
    have : s = [] := List.length_eq_zero.mp (Nat.le_zero.mp h)
    subst this
    rfl
  | succ n ih =>
    unfold collapseLoop
    split
    · rename_i hc
      have := length_replaceAll_dash_lt s hc
      exact ih _ (by omega)
    · rename_i hc
      simpa using hc

/-- The bound of the loop does not change its result once it is at least the length of the
text: the loop has ended before. -/
theorem collapseLoop_bound (n m : Nat) (s : Str) (hn : s.length ≤ n) (hm : s.length ≤ m) :
    collapseLoop n s = collapseLoop m s := by
  induction n generalizing m s with
  | zero =>
    have : s = [] := List.length_eq_zero.mp (Nat.le_zero.mp hn)
    subst this
    cases m with
    | zero => rfl
    | succ m => simp only [collapseLoop, contains_nil_dash, Bool.false_eq_true, if_false]
  | succ n ih =>
    cases m with
    | zero =>
      have : s = [] := List.length_eq_zero.mp (Nat.le_zero.mp hm)
      subst this
      simp only [collapseLoop, contains_nil_dash, Bool.false_eq_true, if_false]
    | succ m =>
      unfold collapseLoop
      split
      · rename_i hc
        have := length_replaceAll_dash_lt s hc
        exact ih m _ (by omega) (by omega)
      · rfl

theorem mem_collapseLoop (n : Nat) (s : Str) (c : Char) (h : c ∈ collapseLoop n s) :
    c ∈ s ∨ c = '-' := by
  induction n generalizing s with
  | zero => exact Or.inl h
  | succ n ih =>
    unfold collapseLoop at h
    split at h
    · rcases ih _ h with h1 | h1
      · rcases mem_replaceAllAux _ _ _ _ _ h1 with h2 | h2
        · exact Or.inl h2
        · have e : "-".toList = ['-'] := rfl
          rw [e] at h2
          exact Or.inr (List.mem_singleton.mp h2)
      · exact Or.inr h1
    · exact Or.inl h

/-! ### The link rewriting -/

theorem replaceAllAux_of_not_contains (old new s : Str) (h : contains s old = false) :
    replaceAllAux old new 0 s = s := by
  induction s with
  | nil => rfl
  | cons x xs ih =>
    simp only [contains, Bool.or_eq_false_iff] at h
    simp only [replaceAllAux, h.1, Bool.false_eq_true, if_false]
    rw [ih h.2]

theorem replaceAll_of_not_contains (old new s : Str) (h : contains s old = false) :
    replaceAll s old new = s :=
  replaceAllAux_of_not_contains old new s h

theorem rewriteLine_settled (l : Str) (h : settledLine l = true) : rewriteLine l = l := by
  simp only [settledLine, Bool.and_eq_true, Bool.not_eq_true', Bool.and_eq_false_iff] at h
  obtain ⟨⟨h1, h2⟩, h3⟩ := h
  unfold rewriteLine
  simp only [replaceAll_of_not_contains _ _ l h1, replaceAll_of_not_contains _ _ l h2]
  rcases h3 with h3 | h3
  · simp only [h3, Bool.false_eq_true, if_false]
  · split
    · exact replaceAll_of_not_contains _ _ l h3
    · rfl

theorem processCrossReferences_settled (body c : Str)
    (h : ∀ l ∈ split body newline, settledLine l = true) :
    processCrossReferences body c = body := by
  unfold processCrossReferences
  have : (split body newline).map rewriteLine = split body newline := by
    conv_rhs => rw [← List.map_id (split body newline)]
    exact List.map_congr_left (fun l hl => rewriteLine_settled l (h l hl))
  rw [this, join_split]

/-! ### The encoder -/

theorem land63 (x : Nat) : x &&& 0x3F = x % 64 := Nat.and_pow_two_sub_one_eq_mod x 6

theorem shl8_or (x : Nat) (b : Byte) : (x <<< 8 ||| b.val) = x * 256 + b.val := by
  have hb : b.val < 2 ^ 8 := b.isLt
  rw [Nat.shiftLeft_eq, Nat.mul_comm, ← Nat.mul_add_lt_is_or hb]

theorem pushByte_zero (x : Nat) (out : Str) (a : Byte) :
    pushByte ⟨x, 0, out⟩ a = ⟨(x * 256 + a.val) % 2 ^ 32, 2, out ++ [sextet (a.val / 4)]⟩ := by
  have ha : a.val < 256 := a.isLt
  have e : (x * 256 + a.val) % 4294967296 / 4 % 64 = a.val / 4 := by omega
  simp only [pushByte, emitLoop, shl8_or, land63, Nat.shiftRight_eq_div_pow, sextet]
  norm_num [e]

theorem pushByte_two (x : Nat) (out : Str) (b : Byte) :
    pushByte ⟨x, 2, out⟩ b =
      ⟨(x * 256 + b.val) % 2 ^ 32, 4, out ++ [sextet (x % 4 * 16 + b.val / 16)]⟩ := by
  have hb : b.val < 256 := b.isLt
  have e : (x * 256 + b.val) % 4294967296 / 16 % 64 = x % 4 * 16 + b.val / 16 := by omega
  simp only [pushByte, emitLoop, shl8_or, land63, Nat.shiftRight_eq_div_pow, sextet]
  norm_num [e]

theorem pushByte_four (x : Nat) (out : Str) (c : Byte) :
    pushByte ⟨x, 4, out⟩ c =
      ⟨(x * 256 + c.val) % 2 ^ 32, 0,
        out ++ [sextet (x % 16 * 4 + c.val / 64), sextet (c.val % 64)]⟩ := by
  have hc : c.val < 256 := c.isLt
  have e1 : (x * 256 + c.val) % 4294967296 / 64 % 64 = x % 16 * 4 + c.val / 64 := by omega
  have e2 : (x * 256 + c.val) % 4294967296 % 64 = c.val % 64 := by omega
  simp only [pushByte, emitLoop, shl8_or, land63, Nat.shiftRight_eq_div_pow, sextet]
  norm_num [e1, e2]

theorem flushAcc_zero (x : Nat) (out : Str) : flushAcc ⟨x, 0, out⟩ = out := by
  simp [flushAcc]

theorem flushAcc_two (x : Nat) (out : Str) (a : Byte) :
    flushAcc ⟨(x * 256 + a.val) % 2 ^ 32, 2, out⟩ = out ++ [sextet (a.val % 4 * 16)] := by
  have ha : a.val < 256 := a.isLt
  have e : (x * 256 + a.val) * 16 % 64 = a.val % 4 * 16 := by omega
  simp only [flushAcc, land63, Nat.shiftLeft_eq, sextet]
  norm_num [e]

theorem flushAcc_four (x : Nat) (out : Str) (b : Byte) :
    flushAcc ⟨(x * 256 + b.val) % 2 ^ 32, 4, out⟩ = out ++ [sextet (b.val % 16 * 4)] := by
  have hb : b.val < 256 := b.isLt
  have e : (x * 256 + b.val) * 4 % 64 = b.val % 16 * 4 := by omega
  simp only [flushAcc, land63, Nat.shiftLeft_eq, sextet]
  norm_num [e]

theorem encode64PlantUML_eq_flush (data : List Byte) :
    encode64PlantUML data = flushAcc (data.foldl pushByte ⟨0, 0, []⟩) := rfl

/-- The text written from an accumulator without pending bits is the text of the groups of
three bytes, whatever the accumulator holds. -/
theorem flush_fold : ∀ (data : List Byte) (x : Nat) (out : Str),
    flushAcc (data.foldl pushByte ⟨x, 0, out⟩) = out ++ sextets data
  | [], x, out => by simp [flushAcc_zero, sextets]
  | [a], x, out => by
    simp only [List.foldl_cons, List.foldl_nil, pushByte_zero, flushAcc_two, sextets]
    simp
  | [a, b], x, out => by
    simp only [List.foldl_cons, List.foldl_nil, pushByte_zero, pushByte_two, flushAcc_four,
      sextets]
    have ha : a.val < 256 := a.isLt
    have e : (x * 256 + a.val) % 4294967296 % 4 = a.val % 4 := by omega
    simp [e]
  | a :: b :: c :: rest, x, out => by
    simp only [List.foldl_cons, pushByte_zero, pushByte_two, pushByte_four, sextets]
    rw [flush_fold rest]
    have ha : a.val < 256 := a.isLt
    have hb : b.val < 256 := b.isLt
    have e1 : (x * 256 + a.val) % 4294967296 % 4 = a.val % 4 := by omega
    have e2 : ((x * 256 + a.val) % 4294967296 * 256 + b.val) % 4294967296 % 16
        = b.val % 16 := by omega
    simp [e1, e2]

theorem encode64PlantUML_eq_sextets (data : List Byte) :
    encode64PlantUML data = sextets data := by
  rw [encode64PlantUML_eq_flush, flush_fold]
  rfl
theorem sextet_inj_fin : ∀ i j : Fin 64, sextet i.val = sextet j.val → i = j := by
  decide

theorem sextet_inj (i j : Nat) (hi : i < 64) (hj : j < 64) (h : sextet i = sextet j) :
    i = j :=
  congrArg Fin.val (sextet_inj_fin ⟨i, hi⟩ ⟨j, hj⟩ h)

theorem sextet_mem_fin : ∀ i : Fin 64, sextet i.val ∈ alphabet := by
  decide

theorem sextet_mem (i : Nat) (hi : i < 64) : sextet i ∈ alphabet :=
  sextet_mem_fin ⟨i, hi⟩

theorem sextets_length : ∀ data : List Byte,
    (sextets data).length = (8 * data.length + 5) / 6
  | [] => by simp [sextets]
  | [_] => by simp [sextets]
  | [_, _] => by simp [sextets]
  | _ :: _ :: _ :: rest => by
    have := sextets_length rest
    simp only [sextets, List.length_cons, this]
    omega

theorem sextets_mem : ∀ (data : List Byte) (ch : Char), ch ∈ sextets data → ch ∈ alphabet
  | [], ch, h => by simp [sextets] at h
  | [a], ch, h => by
    have ha : a.val < 256 := a.isLt
    simp only [sextets, List.mem_cons, List.mem_singleton, List.not_mem_nil, or_false] at h
    rcases h with rfl | rfl
    · exact sextet_mem _ (by omega)
    · exact sextet_mem _ (by omega)
  | [a, b], ch, h => by
    have ha : a.val < 256 := a.isLt
    have hb : b.val < 256 := b.isLt
    simp only [sextets, List.mem_cons, List.mem_singleton, List.not_mem_nil, or_false] at h
    rcases h with rfl | rfl | rfl
    · exact sextet_mem _ (by omega)
    · exact sextet_mem _ (by omega)
    · exact sextet_mem _ (by omega)
  | a :: b :: c :: rest, ch, h => by
    have ha : a.val < 256 := a.isLt
    have hb : b.val < 256 := b.isLt
    have hc : c.val < 256 := c.isLt
    simp only [sextets, List.mem_cons] at h
    rcases h with rfl | rfl | rfl | rfl | h
    · exact sextet_mem _ (by omega)
    · exact sextet_mem _ (by omega)
    · exact sextet_mem _ (by omega)
    · exact sextet_mem _ (by omega)
    · exact sextets_mem rest ch h

theorem sextets_inj_of_length : ∀ (d1 d2 : List Byte), d1.length = d2.length →
    sextets d1 = sextets d2 → d1 = d2
  | [], [], _, _ => rfl
  | [a], [a1], _, h => by
    have ha : a.val < 256 := a.isLt
    have ha1 : a1.val < 256 := a1.isLt
    simp only [sextets, List.cons.injEq, and_true] at h
    have h1 := sextet_inj _ _ (by omega) (by omega) h.1
    have h2 := sextet_inj _ _ (by omega) (by omega) h.2
    have : a = a1 := Fin.ext (by omega)
    rw [this]
  | [a, b], [a1, b1], _, h => by
    have ha : a.val < 256 := a.isLt
    have ha1 : a1.val < 256 := a1.isLt
    have hb : b.val < 256 := b.isLt
    have hb1 : b1.val < 256 := b1.isLt
    simp only [sextets, List.cons.injEq, and_true] at h
    have h1 := sextet_inj _ _ (by omega) (by omega) h.1
    have h2 := sextet_inj _ _ (by omega) (by omega) h.2.1
    have h3 := sextet_inj _ _ (by omega) (by omega) h.2.2
    have e1 : a = a1 := Fin.ext (by omega)
    have e2 : b = b1 := Fin.ext (by omega)
    rw [e1, e2]
  | a :: b :: c :: rest, a1 :: b1 :: c1 :: rest1, hl, h => by
    have ha : a.val < 256 := a.isLt
    have ha1 : a1.val < 256 := a1.isLt
    have hb : b.val < 256 := b.isLt
    have hb1 : b1.val < 256 := b1.isLt
    have hc : c.val < 256 := c.isLt
    have hc1 : c1.val < 256 := c1.isLt
    simp only [sextets, List.cons.injEq] at h
    have h1 := sextet_inj _ _ (by omega) (by omega) h.1
    have h2 := sextet_inj _ _ (by omega) (by omega) h.2.1
    have h3 := sextet_inj _ _ (by omega) (by omega) h.2.2.1
    have h4 := sextet_inj _ _ (by omega) (by omega) h.2.2.2.1
    have e1 : a = a1 := Fin.ext (by omega)
    have e2 : b = b1 := Fin.ext (by omega)
    have e3 : c = c1 := Fin.ext (by omega)
    have hl1 : rest.length = rest1.length := by simpa using hl
    rw [e1, e2, e3, sextets_inj_of_length rest rest1 hl1 h.2.2.2.2]
  | [], _ :: _, hl, _ => by simp at hl
  | _ :: _, [], hl, _ => by simp at hl
  | [_], _ :: _ :: _, hl, _ => by simp at hl
  | [_, _], [_], hl, _ => by simp at hl
  | [_, _], _ :: _ :: _ :: _, hl, _ => by simp at hl
  | _ :: _ :: _ :: _, [_], hl, _ => by simp at hl
  | _ :: _ :: _ :: _, [_, _], hl, _ => by simp at hl

theorem sextets_injective (d1 d2 : List Byte) (h : sextets d1 = sextets d2) : d1 = d2 := by
  apply sextets_inj_of_length d1 d2 _ h
  have := congrArg List.length h
  rw [sextets_length, sextets_length] at this
  omega
/-- The inner loop of encode64PlantUML has ended when its bound is at least `bitsLen`:
fewer than six bits remain. -/
theorem emitLoop_done (n : Nat) (s : Acc) (h : s.bitsLen ≤ n) : (emitLoop n s).bitsLen < 6 := by
  induction n generalizing s with
  | zero =>
    have : s.bitsLen = 0 := Nat.le_zero.mp h
    simp [emitLoop, this]
  | succ n ih =>
    unfold emitLoop
    split
    · apply ih
      simp only
      omega
    · omega

/-! ### The documents of a removed collection -/

theorem deleteCollections_store (faults : Faults) (cur l : List Str) (store : Store)
    (hw : faults.working) :
    (deleteCollections faults cur l store).store
      = store.filter (fun p => !removedCollection cur l p) := by
  induction l generalizing store with
  | nil => simp [deleteCollections, removedCollection]
  | cons x rest ih =>
    unfold deleteCollections
    by_cases hx : x ∈ cur
    · rw [if_pos hx, ih]
      apply List.filter_congr
      intro p _
      simp [removedCollection, hx]
    · rw [if_neg hx]
      simp only [hw.1, hw.2, DeleteCollection, Bool.false_eq_true, if_false]
      rw [ih, List.filter_filter]
      apply List.filter_congr
      intro p _
      simp only [removedCollection, List.any_cons, hx, not_false_eq_true, decide_True,
        Bool.true_and, Bool.not_or, Bool.and_comm]

theorem deleteCollections_call_ok (faults : Faults) (cur l : List Str) (store : Store)
    (hw : faults.working) (d : Str) (hd : d ∈ l) (hgone : d ∉ cur) :
    (StoreOp.deleteCollection ("content/".toList ++ d), true)
      ∈ (deleteCollections faults cur l store).calls := by
  induction l generalizing store with
  | nil => simp at hd
  | cons x rest ih =>
    unfold deleteCollections
    by_cases hx : x ∈ cur
    · rw [if_pos hx]
      rcases List.mem_cons.mp hd with rfl | hin
      · exact absurd hx hgone
      · exact ih _ hin
    · rw [if_neg hx]
      simp only [hw.1, hw.2, DeleteCollection, Bool.false_eq_true, if_false]
      rcases List.mem_cons.mp hd with rfl | hin
      · exact List.mem_cons_self _ _
      · exact List.mem_cons_of_mem _ (ih _ hin)

theorem deletePostFromDB_subset (env : Env) (faults : Faults) (store : Store) (path : Str)
    (q : Post) (hq : q ∈ (deletePostFromDB env faults store path).1) : q ∈ store := by
  unfold deletePostFromDB at hq
  simp only at hq
  split at hq
  · exact hq
  · split at hq
    · exact hq
    · rename_i store1 heq
      unfold DeletePostByPath at heq
      split at heq
      · cases heq
      · split at heq
        · cases heq
          exact List.mem_of_mem_eraseP hq
        · cases heq

theorem deletePostFromDB_absent (env : Env) (faults : Faults) (store : Store) (path : Str)
    (h : store.any (matchesKey (deleteKey env path).1 (deleteKey env path).2) = false) :
    (deletePostFromDB env faults store path).1 = store := by
  unfold deletePostFromDB
  simp only
  split
  · rfl
  · split
    · rfl
    · rename_i store1 heq
      unfold DeletePostByPath at heq
      split at heq
      · cases heq
      · rw [h] at heq
        simp at heq

theorem deleteFiles_subset (env : Env) (faults : Faults) (tree : Tree)
    (m : List (Str × Str)) (store : Store) (q : Post)
    (hq : q ∈ (deleteFiles env faults tree m store).2.store) : q ∈ store := by
  induction m generalizing store with
  | nil => exact hq
  | cons x rest ih =>
    obtain ⟨path, h⟩ := x
    unfold deleteFiles at hq
    split at hq
    · exact deletePostFromDB_subset env faults store path q (ih _ hq)
    · exact ih _ hq

theorem deleteFiles_store_noop (env : Env) (faults : Faults) (tree : Tree)
    (m : List (Str × Str)) (store : Store)
    (h : ∀ kv ∈ m, notExist env tree kv.1 = true →
      store.any (matchesKey (deleteKey env kv.1).1 (deleteKey env kv.1).2) = false) :
    (deleteFiles env faults tree m store).2.store = store := by
  induction m with
  | nil => rfl
  | cons x rest ih =>
    obtain ⟨path, hv⟩ := x
    have hrest := ih (fun kv hkv => h kv (List.mem_cons_of_mem _ hkv))
    unfold deleteFiles
    split
    · rename_i hne
      simp only
      rw [deletePostFromDB_absent env faults store path
        (h (path, hv) (List.mem_cons_self _ _) hne)]
      exact hrest
    · exact hrest

theorem keys_mapSet (m : List (Str × Str)) (k v p : Str)
    (hp : p ∈ (mapSet m k v).map Prod.fst) : p ∈ m.map Prod.fst ∨ p = k := by
  induction m with
  | nil =>
    simp only [mapSet, List.map_cons, List.map_nil, List.mem_singleton] at hp
    exact Or.inr hp
  | cons x rest ih =>
    obtain ⟨k1, v1⟩ := x
    unfold mapSet at hp
    split at hp
    · rename_i hk
      simp only [List.map_cons, List.mem_cons] at hp ⊢
      rcases hp with hp | hp
      · exact Or.inr hp
      · exact Or.inl (Or.inr hp)
    · simp only [List.map_cons, List.mem_cons] at hp ⊢
      rcases hp with hp | hp
      · exact Or.inl (Or.inl hp)
      · rcases ih hp with h1 | h1
        · exact Or.inl (Or.inr h1)
        · exact Or.inr h1

theorem keys_foldHashes (env : Env) (es : List Entry) (s : Bool × List (Str × Str)) (p : Str)
    (hp : p ∈ (es.foldl (visitHashes env) s).2.map Prod.fst) :
    p ∈ s.2.map Prod.fst ∨ ∃ e ∈ es, walkPath env e = p := by
  induction es generalizing s with
  | nil => exact Or.inl hp
  | cons x rest ih =>
    simp only [List.foldl_cons] at hp
    rcases ih _ hp with h1 | ⟨e, he, h1⟩
    · unfold visitHashes at h1
      split at h1
      · exact Or.inl h1
      · split at h1
        · exact Or.inl h1
        · rcases keys_mapSet _ _ _ _ h1 with h2 | h2
          · exact Or.inl h2
          · exact Or.inr ⟨x, List.mem_cons_self _ _, h2.symm⟩
    · exact Or.inr ⟨e, List.mem_cons_of_mem _ he, h1⟩

/-- A tracked path of the scan that no longer exists was tracked before the scan. -/
theorem vanished_key_was_tracked (env : Env) (tree : Tree) (m : List (Str × Str)) (p : Str)
    (hp : p ∈ (scanTree env tree ⟨false, m, []⟩).fileHashes.map Prod.fst)
    (hne : notExist env tree p = true) : p ∈ m.map Prod.fst := by
  cases tree with
  | none => exact hp
  | some es =>
    simp only [scanTree] at hp
    rw [scanFold_eq] at hp
    rcases keys_foldHashes env es _ p hp with h1 | ⟨e, he, h1⟩
    · exact h1
    · have : notExist env (some es) p = false := by
        simp only [notExist, Bool.not_eq_false', List.any_eq_true, decide_eq_true_eq]
        exact ⟨e, he, h1⟩
      rw [this] at hne
      exact absurd hne (by decide)

theorem UpsertPost_keys (b : Bool) (store store1 : Store) (post : Post) (key : Str)
    (h : UpsertPost b store post key = .ok store1) :
    (∀ k ∈ store.map postKey, k ∈ store1.map postKey) ∧
    (∀ k ∈ store1.map postKey, k ∈ store.map postKey ∨ k = postKey post) := by
  unfold UpsertPost at h
  split at h
  · cases h
  · split at h
    · cases h
    · split at h
      · cases h
        rw [setFirst_keys]
        exact ⟨fun k hk => hk, fun k hk => Or.inl hk⟩
      · cases h
        simp only [List.map_append, List.map_cons, List.map_nil, List.mem_append,
          List.mem_singleton]
        exact ⟨fun k hk => Or.inl hk, fun k hk => hk⟩

theorem autoSyncWalk_keys (env : Env) (faults : Faults) (es : List Entry) (store : Store) :
    (∀ k ∈ store.map postKey, k ∈ (autoSyncWalk env faults es store).store.map postKey) ∧
    (∀ k ∈ (autoSyncWalk env faults es store).store.map postKey,
      k ∈ store.map postKey ∨
      ∃ e ∈ es, ∃ bytes, e.content = some bytes ∧ k = postKey (autoSyncPost env e.rel bytes)) := by
  induction es generalizing store with
  | nil => exact ⟨fun k hk => hk, fun k hk => Or.inl hk⟩
  | cons e rest ih =>
    have lift : ∀ (s0 : Store),
        (∀ k ∈ (autoSyncWalk env faults rest s0).store.map postKey,
          k ∈ s0.map postKey ∨ ∃ e1 ∈ e :: rest, ∃ bytes, e1.content = some bytes ∧
            k = postKey (autoSyncPost env e1.rel bytes)) := by
      intro s0 k hk
      rcases (ih s0).2 k hk with h1 | ⟨e1, he1, h1⟩
      · exact Or.inl h1
      · exact Or.inr ⟨e1, List.mem_cons_of_mem _ he1, h1⟩
    unfold autoSyncWalk
    split
    · exact ⟨fun k hk => hk, fun k hk => Or.inl hk⟩
    · split
      · exact ⟨(ih store).1, lift store⟩
      · split
        · exact ⟨(ih store).1, lift store⟩
        · split
          · exact ⟨fun k hk => hk, fun k hk => Or.inl hk⟩
          · rename_i bytes hb
            simp only
            split
            · exact ⟨(ih store).1, lift store⟩
            · rename_i store1 hu
              have hk := UpsertPost_keys _ _ _ _ _ hu
              refine ⟨fun k h0 => (ih store1).1 k (hk.1 k h0), ?_⟩
              intro k h0
              rcases lift store1 k h0 with h1 | h1
              · rcases hk.2 k h1 with h2 | h2
                · exact Or.inl h2
                · exact Or.inr ⟨e, List.mem_cons_self _ _, bytes, hb, h2⟩
              · exact Or.inr h1

theorem autoSyncFromContent_keys (env : Env) (faults : Faults) (tree : Tree) (store : Store) :
    (∀ k ∈ store.map postKey, k ∈ (autoSyncFromContent env faults tree store).store.map postKey) ∧
    (∀ k ∈ (autoSyncFromContent env faults tree store).store.map postKey,
      k ∈ store.map postKey ∨
      ∃ es, tree = some es ∧ ∃ e ∈ es, ∃ bytes, e.content = some bytes ∧
        k = postKey (autoSyncPost env e.rel bytes)) := by
  cases tree with
  | none => exact ⟨fun k hk => hk, fun k hk => Or.inl hk⟩
  | some es =>
    refine ⟨(autoSyncWalk_keys env faults es store).1, ?_⟩
    intro k hk
    rcases (autoSyncWalk_keys env faults es store).2 k hk with h1 | h1
    · exact Or.inl h1
    · exact Or.inr ⟨es, rfl, h1⟩

/-- The store after a tick: the store after the two deletion loops, passed through
autoSyncFromContent when `changed` is set. -/
theorem watchCycle_store (env : Env) (faults : Faults) (tree : Tree) (st : WatchState)
    (store : Store) (clients : Registry) :
    (watchCycle env faults tree st store clients).store
      = (deleteFiles env faults tree (scanTree env tree ⟨false, st.fileHashes, []⟩).fileHashes
          (deleteCollections faults (collectionsOf env tree) st.collectionDirs store).store).2.store
    ∨ (watchCycle env faults tree st store clients).store
      = (autoSyncFromContent env faults tree
          (deleteFiles env faults tree (scanTree env tree ⟨false, st.fileHashes, []⟩).fileHashes
            (deleteCollections faults (collectionsOf env tree) st.collectionDirs
              store).store).2.store).store := by
  unfold watchCycle
  simp only [scanTree_collections]
  split
  · split
    · exact Or.inr rfl
    · exact Or.inr rfl
  · exact Or.inl rfl

theorem removedCollection_of_mem (cur l : List Str) (p : Post) (d : Str) (hd : d ∈ l)
    (hgone : d ∉ cur) (hp : p.collection = "content/".toList ++ d) :
    removedCollection cur l p = true := by
  unfold removedCollection
  rw [List.any_eq_true]
  exact ⟨d, hd, by simp [hgone, hp]⟩

/-- C1 (the code departs from the claim).  The store and the tracked state match the tree
with `A/a-notes.md` and `A/notes.md`; `A/notes.md` is removed and one tick runs in which
every store call returns nil.  The store does not match the final tree: the per-file delete
removed the document of `A/a-notes.md`, which the upsert then wrote again, and the document
of the removed `A/notes.md` is still stored. -/
theorem convergence_fails_after_file_removal :
    Converged demoEnv treeTwoNotes (autoSyncFromContent demoEnv noFaults treeTwoNotes []).store ∧
    (∀ c ∈ (watchCycle demoEnv noFaults treeOneNote (watchInit demoEnv treeTwoNotes)
        (autoSyncFromContent demoEnv noFaults treeTwoNotes []).store []).calls, c.2 = true) ∧
    notesPost ∈ (watchCycle demoEnv noFaults treeOneNote (watchInit demoEnv treeTwoNotes)
        (autoSyncFromContent demoEnv noFaults treeTwoNotes []).store []).store ∧
    notesPost ∉ derivedPosts demoEnv treeOneNote ∧
    ¬ Converged demoEnv treeOneNote
        (watchCycle demoEnv noFaults treeOneNote (watchInit demoEnv treeTwoNotes)
          (autoSyncFromContent demoEnv noFaults treeTwoNotes []).store []).store := by
  decide

/-- C2 (the code departs from the claim).  For the file `A/notes.md` below the root
"content", autoSyncFromContent upserts under ("content/A", "notes") while deletePostFromDB
deletes ("content/A", "a-notes"): the two keys differ. -/
theorem deleteKey_differs_from_upsertKey :
    upsertKey demoEnv "A/notes.md".toList = ("content/A".toList, "notes".toList) ∧
    deleteKey demoEnv (walkPath demoEnv (demoFile "A/notes.md" "y"))
      = ("content/A".toList, "a-notes".toList) ∧
    deleteKey demoEnv (walkPath demoEnv (demoFile "A/notes.md" "y"))
      ≠ upsertKey demoEnv (demoFile "A/notes.md" "y").rel := by
  decide

/-- C3, as stated, fails: on the empty store DeletePostByPath returns the error "no post
found" and deletePostFromDB returns that error. -/
theorem deletePostByPath_absent_is_error :
    DeletePostByPath false [] "content/A".toList "notes".toList
      = .error (.notFound "content/A".toList "notes".toList) ∧
    (deletePostFromDB demoEnv noFaults [] "content/A/notes.md".toList).2.2 = false :=
  ⟨rfl, by decide⟩

/-- C3, amended.  When no document matches the key, DeletePostByPath with a working driver
returns the error "no post found" for that key, and deletePostFromDB for a path with that
key returns an error and leaves the store unchanged, whatever else fails. -/
theorem deletePostByPath_absent (store : Store) (collectionName url : Str)
    (h : store.any (matchesKey collectionName url) = false) :
    DeletePostByPath false store collectionName url = .error (.notFound collectionName url) ∧
    ∀ (env : Env) (faults : Faults) (filePath : Str),
      deleteKey env filePath = (collectionName, url) →
      (deletePostFromDB env faults store filePath).1 = store ∧
      (deletePostFromDB env faults store filePath).2.2 = false := by
  constructor
  · simp [DeletePostByPath, h]
  · intro env faults filePath hk
    unfold deletePostFromDB
    simp only [hk]
    by_cases hc : faults.connectFails = true
    · simp [hc]
    · by_cases hd : faults.opFails (.deletePostByPath collectionName url) = true
      · simp [hc, hd, DeletePostByPath]
      · simp [hc, hd, DeletePostByPath, h]

/-- Witness of C3: the store holds the index document of collection A only, and the key of
`content/A/notes.md` is deleted. -/
theorem deletePostByPath_absent_witness :
    DeletePostByPath false [⟨"A".toList, [], "content-A-index".toList, "content/A".toList, true⟩]
        "content/A".toList "a-notes".toList
      = .error (.notFound "content/A".toList "a-notes".toList) ∧
    ∀ (env : Env) (faults : Faults) (filePath : Str),
      deleteKey env filePath = ("content/A".toList, "a-notes".toList) →
      (deletePostFromDB env faults
          [⟨"A".toList, [], "content-A-index".toList, "content/A".toList, true⟩] filePath).1
        = [⟨"A".toList, [], "content-A-index".toList, "content/A".toList, true⟩] ∧
      (deletePostFromDB env faults
          [⟨"A".toList, [], "content-A-index".toList, "content/A".toList, true⟩] filePath).2.2
        = false :=
  deletePostByPath_absent _ _ _ (by decide)

/-- C6.  broadcastChange keeps the registered subscribers and their order; the subscriber at
any position gets the message appended to its buffer when the buffer has room and keeps its
buffer unchanged when it is full, whatever the state of the other subscribers. -/
theorem broadcastChange_delivers (clients : Registry) (message : Str) :
    (broadcastChange clients message).map Prod.fst = clients.map Prod.fst ∧
    ∀ (i : Nat) (id : Nat) (c : Chan), clients.get? i = some (id, c) →
      ∃ c1 : Chan, (broadcastChange clients message).get? i = some (id, c1) ∧
        c1.cap = c.cap ∧
        (c.buf.length < c.cap → c1.buf = c.buf ++ [message]) ∧
        (c.cap ≤ c.buf.length → c1 = c) := by
  induction clients with
  | nil => exact ⟨rfl, fun i id c h => by simp at h⟩
  | cons x rest ih =>
    obtain ⟨xid, xc⟩ := x
    refine ⟨by simp [broadcastChange, ih.1], ?_⟩
    intro i id c h
    cases i with
    | zero =>
      simp only [List.get?_cons_zero, Option.some.injEq, Prod.mk.injEq] at h
      obtain ⟨rfl, rfl⟩ := h
      refine ⟨trySend xc message, by simp [broadcastChange], ?_, ?_, ?_⟩
      · unfold trySend; split <;> rfl
      · intro hlt; simp [trySend, hlt]
      · intro hge; simp [trySend, Nat.not_lt.mpr hge]
    | succ n =>
      simp only [List.get?_cons_succ] at h
      obtain ⟨c1, h1, h2⟩ := ih.2 n id c h
      exact ⟨c1, by simpa [broadcastChange] using h1, h2⟩

/-- Witness of C6: the first subscriber has a full buffer of capacity 1, the second has
room; the second one receives the message. -/
theorem broadcastChange_delivers_witness :
    ∃ c1 : Chan,
      (broadcastChange [(0, ⟨1, ["old".toList]⟩), (1, ⟨10, []⟩)] "reload".toList).get? 1
        = some (1, c1) ∧
      c1.cap = 10 ∧
      ((([] : List Str).length < 10) → c1.buf = [] ++ ["reload".toList]) ∧
      (10 ≤ ([] : List Str).length → c1 = ⟨10, []⟩) :=
  (broadcastChange_delivers [(0, ⟨1, ["old".toList]⟩), (1, ⟨10, []⟩)] "reload".toList).2
    1 1 ⟨10, []⟩ rfl

/-- C5.  In the sequence of store calls of a tick the collection deletions come first, then
the per-file deletions, then the upserts: no call is followed by a call of an earlier
kind. -/
theorem watchCycle_calls_ordered (env : Env) (faults : Faults) (tree : Tree) (st : WatchState)
    (store : Store) (clients : Registry) :
    (watchCycle env faults tree st store clients).calls.Pairwise
      (fun a b => opRank a.1 ≤ opRank b.1) := by
  obtain ⟨l3, h, h3⟩ := watchCycle_calls env faults tree st store clients
  rw [h]
  have h1 := deleteCollections_rank faults
    (scanTree env tree ⟨false, st.fileHashes, []⟩).currentCollections st.collectionDirs store
  have h2 := deleteFiles_rank env faults tree
    (scanTree env tree ⟨false, st.fileHashes, []⟩).fileHashes
    (deleteCollections faults (scanTree env tree ⟨false, st.fileHashes, []⟩).currentCollections
      st.collectionDirs store).store
  have same : ∀ (l : List Call) (n : Nat), (∀ c ∈ l, opRank c.1 = n) →
      l.Pairwise (fun a b => opRank a.1 ≤ opRank b.1) := by
    intro l n hl
    induction l with
    | nil => exact List.Pairwise.nil
    | cons a rest ih =>
      refine List.Pairwise.cons ?_ (ih (fun c hc => hl c (List.mem_cons_of_mem _ hc)))
      intro b hb
      rw [hl a (List.mem_cons_self _ _), hl b (List.mem_cons_of_mem _ hb)]
  rw [List.pairwise_append, List.pairwise_append]
  refine ⟨⟨same _ 0 h1, same _ 1 h2, ?_⟩, same _ 2 h3, ?_⟩
  · intro a ha b hb
    rw [h1 a ha, h2 b hb]; exact Nat.zero_le _
  · intro a ha b hb
    rw [h3 b hb]
    rcases List.mem_append.mp ha with ha | ha
    · rw [h1 a ha]; exact Nat.zero_le _
    · rw [h2 a ha]; exact Nat.le_succ _

/-- C9, as stated, fails: `a.md` cannot be read and the walk stops there, so `b.md`, which
is readable, is not upserted. -/
theorem autoSync_stops_at_unreadable_file :
    autoSyncPost demoEnv "b.md".toList "text".toList
      ∈ derivedPosts demoEnv (some [lockedFile "a.md", demoFile "b.md" "text"]) ∧
    (autoSyncFromContent demoEnv noFaults
      (some [lockedFile "a.md", demoFile "b.md" "text"]) []).calls = [] ∧
    (autoSyncFromContent demoEnv noFaults
      (some [lockedFile "a.md", demoFile "b.md" "text"]) []).err = true := by
  decide

/-- C9, amended.  In a tree whose .md files can all be read and in which the walk reports
no error, a store error of an upsert does not abort the batch: autoSyncFromContent returns
no error and issues, in the order of the walk, one upsert for every .md file of the tree,
whichever of these upserts fail. -/
theorem autoSync_upsert_failure_does_not_abort (env : Env) (faults : Faults)
    (es : List Entry) (store : Store)
    (hread : ∀ e ∈ es, e.walkErr = false ∧ (isMarkdown e = true → e.content.isSome = true)) :
    (autoSyncFromContent env faults (some es) store).err = false ∧
    (autoSyncFromContent env faults (some es) store).calls =
      (derivedPosts env (some es)).map
        (fun p => (StoreOp.upsertPost p, !faults.opFails (.upsertPost p))) :=
  autoSyncWalk_all env faults es store hread

/-- Witness of C9: every upsert fails, and both files are still upserted. -/
theorem autoSync_upsert_failure_does_not_abort_witness :
    (autoSyncFromContent demoEnv ⟨false, fun _ => true⟩
      (some [demoFile "a.md" "one", demoFile "b.md" "two"]) []).err = false ∧
    (autoSyncFromContent demoEnv ⟨false, fun _ => true⟩
      (some [demoFile "a.md" "one", demoFile "b.md" "two"]) []).calls =
      (derivedPosts demoEnv (some [demoFile "a.md" "one", demoFile "b.md" "two"])).map
        (fun p => (StoreOp.upsertPost p,
          !(⟨false, fun _ => true⟩ : Faults).opFails (.upsertPost p))) :=
  autoSync_upsert_failure_does_not_abort demoEnv ⟨false, fun _ => true⟩
    [demoFile "a.md" "one", demoFile "b.md" "two"] [] (by decide)

/-- C4, as stated, fails: the directory `A` and its two tracked files are removed; the tick
issues the deletion of the collection "content/A" and, after it, one per-file delete for
each of the two files that were inside it. -/
theorem removed_collection_also_deletes_its_files :
    (watchCycle demoEnv noFaults (some []) (watchInit demoEnv treeTwoNotes) storeTwoNotes
        []).calls =
      [(.deleteCollection "content/A".toList, true),
       (.deletePostByPath "content/A".toList "a-a-notes".toList, false),
       (.deletePostByPath "content/A".toList "a-notes".toList, false)] := by
  decide

/-- C4, amended.  In a tick with a working database connection in which a tracked
collection directory has disappeared, exactly one DeleteCollection call is issued for that
collection, and a per-file delete is issued as well for every tracked file that has
disappeared; for a file that was inside that collection it is a delete in the collection
"content/" followed by the directory name. -/
theorem removed_collection_deleted_once (env : Env) (faults : Faults) (tree : Tree)
    (st : WatchState) (store : Store) (clients : Registry) (c : Str)
    (hconn : faults.connectFails = false) (hnd : st.collectionDirs.Nodup)
    (hc : c ∈ st.collectionDirs) (hgone : c ∉ collectionsOf env tree) :
    ((watchCycle env faults tree st store clients).calls.map Prod.fst).count
        (.deleteCollection ("content/".toList ++ c)) = 1 ∧
    (∀ path ∈ st.fileHashes.map Prod.fst, notExist env tree path = true →
      StoreOp.deletePostByPath (deleteKey env path).1 (deleteKey env path).2 ∈
        (watchCycle env faults tree st store clients).calls.map Prod.fst) ∧
    (∀ rest : Str, '/' ∉ c →
      env.syncDir ++ '/' :: (c ++ '/' :: rest) ∈ st.fileHashes.map Prod.fst →
      notExist env tree (env.syncDir ++ '/' :: (c ++ '/' :: rest)) = true →
      StoreOp.deletePostByPath ("content/".toList ++ c)
          (deleteKey env (env.syncDir ++ '/' :: (c ++ '/' :: rest))).2 ∈
        (watchCycle env faults tree st store clients).calls.map Prod.fst) := by
  have hfiles : ∀ path ∈ st.fileHashes.map Prod.fst, notExist env tree path = true →
      StoreOp.deletePostByPath (deleteKey env path).1 (deleteKey env path).2 ∈
        (watchCycle env faults tree st store clients).calls.map Prod.fst := by
    obtain ⟨l3, h, _⟩ := watchCycle_calls env faults tree st store clients
    rw [h]
    simp only [List.map_append, List.mem_append]
    intro path hpath hne
    refine Or.inl (Or.inr ?_)
    rw [deleteFiles_calls _ _ _ _ _ hconn]
    obtain ⟨kv, hkv, hk⟩ := List.mem_map.mp
      (scanTree_keys env tree ⟨false, st.fileHashes, []⟩ path hpath)
    subst hk
    exact List.mem_map.mpr ⟨kv, List.mem_filter.mpr ⟨hkv, hne⟩, rfl⟩
  refine ⟨?_, hfiles, ?_⟩
  swap
  · intro rest hslash hpath hne
    have := hfiles _ hpath hne
    rwa [deleteKey_collection env c rest hslash] at this
  obtain ⟨l3, h, h3⟩ := watchCycle_calls env faults tree st store clients
  rw [h]
  have r2 := deleteFiles_rank env faults tree
    (scanTree env tree ⟨false, st.fileHashes, []⟩).fileHashes
    (deleteCollections faults (scanTree env tree ⟨false, st.fileHashes, []⟩).currentCollections
      st.collectionDirs store).store
  have z2 := count_eq_zero_of_rank _ (.deleteCollection ("content/".toList ++ c))
    (fun x hx => by rw [r2 x hx]; exact Nat.succ_ne_zero 0)
  have z3 := count_eq_zero_of_rank l3 (.deleteCollection ("content/".toList ++ c))
    (fun x hx => by rw [h3 x hx]; exact Nat.succ_ne_zero 1)
  simp only [List.map_append, List.count_append]
  rw [z2, z3, deleteCollections_calls _ _ _ _ hconn, scanTree_collections]
  simp only [Nat.add_zero]
  apply List.count_eq_one_of_mem
  · apply List.Nodup.map _ (hnd.filter _)
    intro a b hab
    exact List.append_cancel_left (StoreOp.deleteCollection.inj hab)
  · exact List.mem_map.mpr ⟨c, List.mem_filter.mpr ⟨hc, by simpa using hgone⟩, rfl⟩

/-- Witness of C4: the directory `A` of `treeTwoNotes` has disappeared. -/
theorem removed_collection_deleted_once_witness :
    ((watchCycle demoEnv noFaults (some []) (watchInit demoEnv treeTwoNotes) storeTwoNotes
        []).calls.map Prod.fst).count (.deleteCollection ("content/".toList ++ "A".toList)) = 1 ∧
    (∀ path ∈ (watchInit demoEnv treeTwoNotes).fileHashes.map Prod.fst,
      notExist demoEnv (some []) path = true →
      StoreOp.deletePostByPath (deleteKey demoEnv path).1 (deleteKey demoEnv path).2 ∈
        (watchCycle demoEnv noFaults (some []) (watchInit demoEnv treeTwoNotes) storeTwoNotes
          []).calls.map Prod.fst) ∧
    (∀ rest : Str, '/' ∉ "A".toList →
      demoEnv.syncDir ++ '/' :: ("A".toList ++ '/' :: rest) ∈
        (watchInit demoEnv treeTwoNotes).fileHashes.map Prod.fst →
      notExist demoEnv (some []) (demoEnv.syncDir ++ '/' :: ("A".toList ++ '/' :: rest)) = true →
      StoreOp.deletePostByPath ("content/".toList ++ "A".toList)
          (deleteKey demoEnv (demoEnv.syncDir ++ '/' :: ("A".toList ++ '/' :: rest))).2 ∈
        (watchCycle demoEnv noFaults (some []) (watchInit demoEnv treeTwoNotes) storeTwoNotes
          []).calls.map Prod.fst) :=
  removed_collection_deleted_once demoEnv noFaults (some []) (watchInit demoEnv treeTwoNotes)
    storeTwoNotes [] "A".toList rfl (by decide) (by decide) (by decide)

/-- C7.  On a tree without duplicate paths, a tick that follows another tick with no change
of the tree in between detects no change, issues no store call and broadcasts nothing; it
leaves the store, the subscribers and the tracked state as they are. -/
theorem second_cycle_is_idle (env : Env) (faults1 faults2 : Faults) (tree : Tree)
    (st : WatchState) (store : Store) (clients : Registry) (hwf : tree.wf) :
    (watchCycle env faults2 tree (watchCycle env faults1 tree st store clients).state
        (watchCycle env faults1 tree st store clients).store
        (watchCycle env faults1 tree st store clients).clients) =
      ⟨(watchCycle env faults1 tree st store clients).state,
       (watchCycle env faults1 tree st store clients).store,
       (watchCycle env faults1 tree st store clients).clients, [], false, []⟩ :=
  cycle_of_settled env faults2 tree _ _ _
    (settled_after_cycle env faults1 tree st store clients hwf)

/-- Witness of C7: two ticks after `A/notes.md` was removed from `treeTwoNotes`. -/
theorem second_cycle_is_idle_witness :
    (watchCycle demoEnv allFail treeOneNote
        (watchCycle demoEnv noFaults treeOneNote (watchInit demoEnv treeTwoNotes)
          storeTwoNotes [(0, ⟨10, []⟩)]).state
        (watchCycle demoEnv noFaults treeOneNote (watchInit demoEnv treeTwoNotes)
          storeTwoNotes [(0, ⟨10, []⟩)]).store
        (watchCycle demoEnv noFaults treeOneNote (watchInit demoEnv treeTwoNotes)
          storeTwoNotes [(0, ⟨10, []⟩)]).clients) =
      ⟨(watchCycle demoEnv noFaults treeOneNote (watchInit demoEnv treeTwoNotes)
          storeTwoNotes [(0, ⟨10, []⟩)]).state,
       (watchCycle demoEnv noFaults treeOneNote (watchInit demoEnv treeTwoNotes)
          storeTwoNotes [(0, ⟨10, []⟩)]).store,
       (watchCycle demoEnv noFaults treeOneNote (watchInit demoEnv treeTwoNotes)
          storeTwoNotes [(0, ⟨10, []⟩)]).clients, [], false, []⟩ :=
  second_cycle_is_idle demoEnv noFaults allFail treeOneNote (watchInit demoEnv treeTwoNotes)
    storeTwoNotes [(0, ⟨10, []⟩)] (by decide)

/-- C8 (the code departs from the claim).  The sync root is missing at a tick while the
collection `A` and its two files are tracked: autoSyncFromContent, which checks the root,
returns an error without a store call, but the tick has no such check and deletes the
collection "content/A", issues a per-file delete for both files and empties the tracked
state. -/
theorem missing_root_deletes_tracked_collections :
    (autoSyncFromContent demoEnv noFaults none storeTwoNotes).err = true ∧
    (autoSyncFromContent demoEnv noFaults none storeTwoNotes).calls = [] ∧
    (watchCycle demoEnv noFaults none (watchInit demoEnv treeTwoNotes) storeTwoNotes []).calls =
      [(.deleteCollection "content/A".toList, true),
       (.deletePostByPath "content/A".toList "a-a-notes".toList, false),
       (.deletePostByPath "content/A".toList "a-notes".toList, false)] ∧
    storeTwoNotes.length = 2 ∧
    (watchCycle demoEnv noFaults none (watchInit demoEnv treeTwoNotes) storeTwoNotes []).store
      = [] ∧
    (watchInit demoEnv treeTwoNotes).collectionDirs = ["A".toList] ∧
    (watchInit demoEnv treeTwoNotes).fileHashes.length = 2 ∧
    (watchCycle demoEnv noFaults none (watchInit demoEnv treeTwoNotes) storeTwoNotes []).state
      = ⟨[], []⟩ := by
  decide

/-- C10, as stated, fails: `A/notes.md` is new and its upsert fails; the tick has recorded
the digest of the file all the same, and the next tick on the unchanged tree detects no
change and issues no store call. -/
theorem failed_upsert_is_tracked :
    (watchCycle demoEnv allFail (some treeNotes) ⟨[], []⟩ [] []).calls
      = [(.upsertPost notesPost, false)] ∧
    mapGet (watchCycle demoEnv allFail (some treeNotes) ⟨[], []⟩ [] []).state.fileHashes
      "content/A/notes.md".toList = some "y".toList ∧
    (watchCycle demoEnv noFaults (some treeNotes)
      (watchCycle demoEnv allFail (some treeNotes) ⟨[], []⟩ [] []).state
      (watchCycle demoEnv allFail (some treeNotes) ⟨[], []⟩ [] []).store
      (watchCycle demoEnv allFail (some treeNotes) ⟨[], []⟩ [] []).clients).changed = false ∧
    (watchCycle demoEnv noFaults (some treeNotes)
      (watchCycle demoEnv allFail (some treeNotes) ⟨[], []⟩ [] []).state
      (watchCycle demoEnv allFail (some treeNotes) ⟨[], []⟩ [] []).store
      (watchCycle demoEnv allFail (some treeNotes) ⟨[], []⟩ [] []).clients).calls = [] := by
  decide

/-- C10, amended.  If the upsert of an added or modified file fails in a tick, the tracked
digest of that file is updated in that tick all the same (the scan records it before the
upsert), so the next tick on the unchanged tree does not detect the file as changed and
does not retry the upsert: it issues no store call. -/
theorem failed_upsert_not_retried (env : Env) (faults1 faults2 : Faults) (es : List Entry)
    (st : WatchState) (store : Store) (clients : Registry) (e : Entry) (bytes : Str)
    (hwf : Tree.wf (some es)) (he : e ∈ es) (hc : e.content = some bytes)
    (ht : trackable env e = some (env.hashOf bytes))
    (_hnew : mapGet st.fileHashes (walkPath env e) ≠ some (env.hashOf bytes))
    (_hfail : (StoreOp.upsertPost (autoSyncPost env e.rel bytes), false) ∈
      (watchCycle env faults1 (some es) st store clients).calls) :
    hashFile env e = some (env.hashOf bytes) ∧
    mapGet (watchCycle env faults1 (some es) st store clients).state.fileHashes (walkPath env e)
      = some (env.hashOf bytes) ∧
    (watchCycle env faults2 (some es) (watchCycle env faults1 (some es) st store clients).state
      (watchCycle env faults1 (some es) st store clients).store
      (watchCycle env faults1 (some es) st store clients).clients).changed = false ∧
    (watchCycle env faults2 (some es) (watchCycle env faults1 (some es) st store clients).state
      (watchCycle env faults1 (some es) st store clients).store
      (watchCycle env faults1 (some es) st store clients).clients).calls = [] := by
  have hs := settled_after_cycle env faults1 (some es) st store clients hwf
  rw [cycle_of_settled env faults2 (some es) _ _ _ hs]
  exact ⟨by simp only [hashFile, hc, Option.map_some'], hs.2.2 es rfl e he _ ht, rfl, rfl⟩

/-- Witness of C10: `A/notes.md` is new and every store call fails. -/
theorem failed_upsert_not_retried_witness :
    hashFile demoEnv (demoFile "A/notes.md" "y") = some (demoEnv.hashOf "y".toList) ∧
    mapGet (watchCycle demoEnv allFail (some treeNotes) ⟨[], []⟩ [] []).state.fileHashes
      (walkPath demoEnv (demoFile "A/notes.md" "y")) = some (demoEnv.hashOf "y".toList) ∧
    (watchCycle demoEnv allFail (some treeNotes)
      (watchCycle demoEnv allFail (some treeNotes) ⟨[], []⟩ [] []).state
      (watchCycle demoEnv allFail (some treeNotes) ⟨[], []⟩ [] []).store
      (watchCycle demoEnv allFail (some treeNotes) ⟨[], []⟩ [] []).clients).changed = false ∧
    (watchCycle demoEnv allFail (some treeNotes)
      (watchCycle demoEnv allFail (some treeNotes) ⟨[], []⟩ [] []).state
      (watchCycle demoEnv allFail (some treeNotes) ⟨[], []⟩ [] []).store
      (watchCycle demoEnv allFail (some treeNotes) ⟨[], []⟩ [] []).clients).calls = [] :=
  failed_upsert_not_retried demoEnv allFail allFail treeNotes ⟨[], []⟩ [] []
    (demoFile "A/notes.md" "y") "y".toList (by decide) (by decide) rfl (by decide)
    (by decide) (by decide)

/-- C13.  autoSyncFromContent puts a file that sits directly in the root into the fixed
collection "content/root", and a file below a first-level directory `c`, at any depth,
into the collection "content/" followed by `c`; every relative path is of one of the two
kinds. -/
theorem autoSync_collection (env : Env) (contentBytes : Str) :
    (∀ rel : Str, '/' ∉ rel →
      (autoSyncPost env rel contentBytes).collection = "content/root".toList) ∧
    (∀ c rest : Str, '/' ∉ c →
      (autoSyncPost env (c ++ '/' :: rest) contentBytes).collection = "content/".toList ++ c) ∧
    (∀ rel : Str, '/' ∈ rel → ∃ c rest : Str, '/' ∉ c ∧ rel = c ++ '/' :: rest) := by
  refine ⟨?_, ?_, exists_first_component⟩
  · intro rel h
    rw [autoSyncPost_eq, autoSyncCollection_root rel h]
  · intro c rest h
    rw [autoSyncPost_eq, autoSyncCollection_dir c rest h]

/-- Witness of C13: `notes.md` in the root and `A/sub/notes.md` two levels below `A`. -/
theorem autoSync_collection_witness :
    (autoSyncPost demoEnv "notes.md".toList []).collection = "content/root".toList ∧
    (autoSyncPost demoEnv ("A".toList ++ '/' :: "sub/notes.md".toList) []).collection
      = "content/".toList ++ "A".toList :=
  ⟨(autoSync_collection demoEnv []).1 "notes.md".toList (by decide),
   (autoSync_collection demoEnv []).2.1 "A".toList "sub/notes.md".toList (by decide)⟩

/-- C14, as stated, fails: the index file `A/README.md` is in the collection "content/A"
and gets the url "content-A-index", which is not the collection name followed by
"-index". -/
theorem index_url_is_not_collection_index :
    (autoSyncPost demoEnv "A/README.md".toList []).isIndex = true ∧
    (autoSyncPost demoEnv "A/README.md".toList []).collection = "content/A".toList ∧
    (autoSyncPost demoEnv "A/README.md".toList []).url = "content-A-index".toList ∧
    (autoSyncPost demoEnv "A/README.md".toList []).url ≠
      (autoSyncPost demoEnv "A/README.md".toList []).collection ++ "-index".toList := by
  decide

/-- C14, amended.  The url that autoSyncFromContent assigns to an index file is the
collection name of its document with every "/" replaced by "-", followed by "-index",
regardless of the file name: "content-" followed by the directory name and "-index" for a
file below a first-level directory, and "content-root-index" for a file in the root. -/
theorem index_url (env : Env) (contentBytes : Str) :
    (∀ rel : Str, (autoSyncPost env rel contentBytes).isIndex = true →
      (autoSyncPost env rel contentBytes).url =
        (autoSyncPost env rel contentBytes).collection.map (fun c => if c = '/' then '-' else c)
          ++ "-index".toList) ∧
    (∀ c rest : Str, '/' ∉ c → isIndexName (filepathBase rest) = true →
      (autoSyncPost env (c ++ '/' :: rest) contentBytes).url
        = "content-".toList ++ c ++ "-index".toList) ∧
    (∀ rel : Str, '/' ∉ rel → isIndexName (filepathBase rel) = true →
      (autoSyncPost env rel contentBytes).url = "content-root-index".toList) := by
  refine ⟨?_, ?_, ?_⟩
  · intro rel h
    rw [autoSyncPost_eq] at h ⊢
    simp only at h ⊢
    rw [if_pos h]
  · intro c rest hc h
    rw [autoSyncPost_eq, autoSyncCollection_dir c rest hc]
    simp only [h, if_true, List.map_append, map_dash_noslash c hc]
    rfl
  · intro rel hr h
    rw [autoSyncPost_eq, autoSyncCollection_root rel hr]
    simp only [h, if_true]
    rfl

/-- Witness of C14: `A/sub/Index.md` and `ReadMe.md` in the root. -/
theorem index_url_witness :
    (autoSyncPost demoEnv ("A".toList ++ '/' :: "sub/Index.md".toList) []).url
      = "content-".toList ++ "A".toList ++ "-index".toList ∧
    (autoSyncPost demoEnv "ReadMe.md".toList []).url = "content-root-index".toList :=
  ⟨(index_url demoEnv []).2.1 "A".toList "sub/Index.md".toList (by decide) (by decide),
   (index_url demoEnv []).2.2 "ReadMe.md".toList (by decide) (by decide)⟩

/-- C15, as stated, fails: the url of `A/notes.md` is "notes", without the directory, while
the slug of the relative path is "a-notes"; and the url of `A/My  No_tes.md` is
"my--no-tes", with the run of "-" kept and the underscore replaced. -/
theorem url_is_not_path_slug :
    (autoSyncPost demoEnv "A/notes.md".toList []).isIndex = false ∧
    (autoSyncPost demoEnv "A/notes.md".toList []).url = "notes".toList ∧
    specUrl "A/notes.md".toList = "a-notes".toList ∧
    (autoSyncPost demoEnv "A/notes.md".toList []).url ≠ specUrl "A/notes.md".toList ∧
    (autoSyncPost demoEnv "A/My  No_tes.md".toList []).url = "my--no-tes".toList ∧
    specUrl "A/My  No_tes.md".toList = "a-my-no_tes".toList := by
  decide

/-- C15, amended.  The url that autoSyncFromContent assigns to a file that is not an index
file is derived from the base name of the file only: the name without ".md", character by
character, a space replaced by "-", then lower-cased, then an underscore replaced by "-".
The directories of the path do not enter the url and runs of "-" are kept. -/
theorem nonindex_url (env : Env) (contentBytes : Str) :
    (∀ rel : Str, (autoSyncPost env rel contentBytes).isIndex = false →
      (autoSyncPost env rel contentBytes).url =
        (autoSyncPost env rel contentBytes).title.map slugChar) ∧
    (∀ c rest : Str, '/' ∉ c → isIndexName (filepathBase rest) = false →
      (autoSyncPost env (c ++ '/' :: rest) contentBytes).url
        = (trimSuffix (filepathBase rest) ".md".toList).map slugChar) ∧
    (∀ rel : Str, '/' ∉ rel → isIndexName (filepathBase rel) = false →
      (autoSyncPost env rel contentBytes).url
        = (trimSuffix (filepathBase rel) ".md".toList).map slugChar) := by
  refine ⟨?_, ?_, ?_⟩
  · intro rel h
    rw [autoSyncPost_eq] at h ⊢
    simp only at h ⊢
    rw [h]
    rfl
  · intro c rest hc h
    rw [autoSyncPost_eq, autoSyncCollection_dir c rest hc]
    simp only [h, Bool.false_eq_true, if_false]
  · intro rel hr h
    rw [autoSyncPost_eq, autoSyncCollection_root rel hr]
    simp only [h, Bool.false_eq_true, if_false]

/-- Witness of C15: `A/sub/My Notes.md` and `To_Do.md` in the root. -/
theorem nonindex_url_witness :
    (autoSyncPost demoEnv ("A".toList ++ '/' :: "sub/My Notes.md".toList) []).url
      = (trimSuffix (filepathBase "sub/My Notes.md".toList) ".md".toList).map slugChar ∧
    (autoSyncPost demoEnv "To_Do.md".toList []).url
      = (trimSuffix (filepathBase "To_Do.md".toList) ".md".toList).map slugChar ∧
    (trimSuffix (filepathBase "sub/My Notes.md".toList) ".md".toList).map slugChar
      = "my-notes".toList ∧
    (trimSuffix (filepathBase "To_Do.md".toList) ".md".toList).map slugChar = "to-do".toList :=
  ⟨(nonindex_url demoEnv []).2.1 "A".toList "sub/My Notes.md".toList (by decide) (by decide),
   (nonindex_url demoEnv []).2.2 "To_Do.md".toList (by decide) (by decide),
   by decide, by decide⟩

/-- C16.  For a file with base name `name`, in the root or below a first-level directory,
the isIndex flag of autoSyncFromContent is true exactly when `name`, lower-cased, is
"index.md" or "readme.md"; and so is the isIndex flag that parseMarkdownFile computes for
the file name `name`. -/
theorem isIndex_iff (name : Str) :
    (∀ (env : Env) (c rest contentBytes : Str), '/' ∉ c → filepathBase rest = name →
      ((autoSyncPost env (c ++ '/' :: rest) contentBytes).isIndex = true ↔
        toLower name = "index.md".toList ∨ toLower name = "readme.md".toList)) ∧
    (∀ (env : Env) (rel contentBytes : Str), '/' ∉ rel → filepathBase rel = name →
      ((autoSyncPost env rel contentBytes).isIndex = true ↔
        toLower name = "index.md".toList ∨ toLower name = "readme.md".toList)) ∧
    (∀ content : Str, (parseMarkdownFile content name).isIndex = true ↔
        toLower name = "index.md".toList ∨ toLower name = "readme.md".toList) := by
  refine ⟨?_, ?_, ?_⟩
  · intro env c rest contentBytes hc hn
    rw [autoSyncPost_eq, autoSyncCollection_dir c rest hc]
    simp only [hn, isIndexName, Bool.or_eq_true, decide_eq_true_eq]
  · intro env rel contentBytes hr hn
    rw [autoSyncPost_eq, autoSyncCollection_root rel hr]
    simp only [hn, isIndexName, Bool.or_eq_true, decide_eq_true_eq]
  · intro content
    simp only [parseMarkdownFile, Bool.or_eq_true, decide_eq_true_eq]

/-- Witness of C16: `A/docs/ReadMe.MD` is an index file; `myindex.md` and `readme.md.md`
are not. -/
theorem isIndex_iff_witness :
    ((autoSyncPost demoEnv ("A".toList ++ '/' :: "docs/ReadMe.MD".toList) []).isIndex = true ↔
      toLower "ReadMe.MD".toList = "index.md".toList ∨
      toLower "ReadMe.MD".toList = "readme.md".toList) ∧
    (autoSyncPost demoEnv "A/docs/ReadMe.MD".toList []).isIndex = true ∧
    (autoSyncPost demoEnv "A/myindex.md".toList []).isIndex = false ∧
    (autoSyncPost demoEnv "A/readme.md.md".toList []).isIndex = false ∧
    (parseMarkdownFile [] "INDEX.md".toList).isIndex = true ∧
    (parseMarkdownFile [] "myindex.md".toList).isIndex = false ∧
    (parseMarkdownFile [] "readme.md.md".toList).isIndex = false :=
  ⟨(isIndex_iff "ReadMe.MD".toList).1 demoEnv "A".toList "docs/ReadMe.MD".toList []
      (by decide) (by decide),
   by decide, by decide, by decide, by decide, by decide, by decide⟩

/-- C17, as stated, fails: the content of `A/notes.md` begins with a front-matter block
whose title is "Hello" (parseMarkdownFile reads it), and the document that
autoSyncFromContent builds has the title "notes". -/
theorem title_ignores_front_matter :
    (parseMarkdownFile frontMatterNotes "notes.md".toList).title = "Hello".toList ∧
    (autoSyncPost demoEnv "A/notes.md".toList frontMatterNotes).title = "notes".toList := by
  decide

/-- C17, amended.  The title of the document that autoSyncFromContent builds is the base
name of the file without ".md", whatever the content of the file: a front-matter title is
not read. -/
theorem title_is_file_name (env : Env) :
    (∀ rel content1 content2 : Str,
      (autoSyncPost env rel content1).title = (autoSyncPost env rel content2).title) ∧
    (∀ c rest contentBytes : Str, '/' ∉ c →
      (autoSyncPost env (c ++ '/' :: rest) contentBytes).title
        = trimSuffix (filepathBase rest) ".md".toList) ∧
    (∀ rel contentBytes : Str, '/' ∉ rel →
      (autoSyncPost env rel contentBytes).title = trimSuffix (filepathBase rel) ".md".toList) := by
  refine ⟨?_, ?_, ?_⟩
  · intro rel content1 content2
    rw [autoSyncPost_eq, autoSyncPost_eq]
  · intro c rest contentBytes hc
    rw [autoSyncPost_eq, autoSyncCollection_dir c rest hc]
  · intro rel contentBytes hr
    rw [autoSyncPost_eq, autoSyncCollection_root rel hr]

/-- Witness of C17: `A/notes.md` with the front-matter content. -/
theorem title_is_file_name_witness :
    (autoSyncPost demoEnv ("A".toList ++ '/' :: "notes.md".toList) frontMatterNotes).title
      = trimSuffix (filepathBase "notes.md".toList) ".md".toList ∧
    trimSuffix (filepathBase "notes.md".toList) ".md".toList = "notes".toList :=
  ⟨(title_is_file_name demoEnv).2.1 "A".toList "notes.md".toList frontMatterNotes (by decide),
   by decide⟩

/-- C18, as stated, fails: `A/notes.md` and `A/sub/notes.md` are two files of the
collection "content/A" with the same url "notes"; after autoSyncFromContent the store
holds one document for them, with the body of the file that was walked last. -/
theorem same_name_same_url :
    upsertKey demoEnv "A/notes.md".toList = ("content/A".toList, "notes".toList) ∧
    upsertKey demoEnv "A/sub/notes.md".toList = ("content/A".toList, "notes".toList) ∧
    (derivedPosts demoEnv treeSameName).length = 2 ∧
    (autoSyncFromContent demoEnv noFaults treeSameName []).store =
      [⟨"notes".toList, "two".toList, "notes".toList, "content/A".toList, false⟩] := by
  decide

/-- C18, amended.  Two files below the same first-level directory that are not index files
are in the same collection, and they get the same url exactly when their base names without
".md" agree once a space is read as "-", letters are lower-cased and an underscore is read
as "-"; in particular two different names `t1.md` and `t2.md` that these replacements leave
unchanged get different urls. -/
theorem url_distinct_iff (env : Env) (c rest1 rest2 content1 content2 : Str) (hc : '/' ∉ c)
    (h1 : isIndexName (filepathBase rest1) = false)
    (h2 : isIndexName (filepathBase rest2) = false) :
    (autoSyncPost env (c ++ '/' :: rest1) content1).collection
      = (autoSyncPost env (c ++ '/' :: rest2) content2).collection ∧
    ((autoSyncPost env (c ++ '/' :: rest1) content1).url
        = (autoSyncPost env (c ++ '/' :: rest2) content2).url ↔
      (trimSuffix (filepathBase rest1) ".md".toList).map slugChar
        = (trimSuffix (filepathBase rest2) ".md".toList).map slugChar) ∧
    (∀ t1 t2 : Str, filepathBase rest1 = t1 ++ ".md".toList →
      filepathBase rest2 = t2 ++ ".md".toList →
      (∀ ch ∈ t1, slugChar ch = ch) → (∀ ch ∈ t2, slugChar ch = ch) → t1 ≠ t2 →
      (autoSyncPost env (c ++ '/' :: rest1) content1).url
        ≠ (autoSyncPost env (c ++ '/' :: rest2) content2).url) := by
  have u1 : (autoSyncPost env (c ++ '/' :: rest1) content1).url
      = (trimSuffix (filepathBase rest1) ".md".toList).map slugChar := by
    rw [autoSyncPost_eq, autoSyncCollection_dir c rest1 hc]
    simp only [h1, Bool.false_eq_true, if_false]
  have u2 : (autoSyncPost env (c ++ '/' :: rest2) content2).url
      = (trimSuffix (filepathBase rest2) ".md".toList).map slugChar := by
    rw [autoSyncPost_eq, autoSyncCollection_dir c rest2 hc]
    simp only [h2, Bool.false_eq_true, if_false]
  refine ⟨?_, ?_, ?_⟩
  · rw [autoSyncPost_eq, autoSyncPost_eq, autoSyncCollection_dir c rest1 hc,
      autoSyncCollection_dir c rest2 hc]
  · rw [u1, u2]
  · intro t1 t2 e1 e2 p1 p2 hne
    rw [u1, u2, e1, e2, trimSuffix_append, trimSuffix_append, map_slugChar_plain t1 p1,
      map_slugChar_plain t2 p2]
    exact hne

/-- Witness of C18: `A/notes.md` and `A/sub/todo.md`. -/
theorem url_distinct_iff_witness :
    (autoSyncPost demoEnv ("A".toList ++ '/' :: "notes.md".toList) []).url
      ≠ (autoSyncPost demoEnv ("A".toList ++ '/' :: "sub/todo.md".toList) []).url :=
  (url_distinct_iff demoEnv "A".toList "notes.md".toList "sub/todo.md".toList [] []
    (by decide) (by decide) (by decide)).2.2 "notes".toList "todo".toList
    (by decide) (by decide) (by decide) (by decide) (by decide)

/-- C19.  On a store whose (collection, url) keys are unique, UpsertPost with the valid key
and a working driver succeeds; the resulting store holds exactly one document with the
key of the post, and that document is the post (its title, body and isIndex with the url
and collection of the key); the documents with another key are the same as before, in the
same order; the number of documents stays the same when the key was present and grows by
one when it was absent; and the keys are still unique. -/
theorem upsertPost_effect (store : Store) (p : Post) (hu : UniqueKeys store) :
    ∃ store1 : Store,
      UpsertPost false store p "124252".toList = .ok store1 ∧
      store1.filter (matchesKey p.collection p.url) = [p] ∧
      store1.filter (fun d => !matchesKey p.collection p.url d)
        = store.filter (fun d => !matchesKey p.collection p.url d) ∧
      (store.any (matchesKey p.collection p.url) = true → store1.length = store.length) ∧
      (store.any (matchesKey p.collection p.url) = false →
        store1.length = store.length + 1) ∧
      UniqueKeys store1 := by
  have hp : matchesKey p.collection p.url p = true := by simp [matchesKey]
  by_cases hany : store.any (matchesKey p.collection p.url) = true
  · refine ⟨setFirst p store, by simp [UpsertPost, hany], setFirst_filter_match p store hu hany,
      setFirst_filter_other p store, fun _ => setFirst_length p store, ?_, ?_⟩
    · intro h; rw [hany] at h; exact absurd h (by decide)
    · unfold UniqueKeys; rw [setFirst_keys]; exact hu
  · simp only [Bool.not_eq_true] at hany
    have hnot : (p.collection, p.url) ∉ store.map postKey := by
      intro hm
      obtain ⟨d, hd, hk⟩ := List.mem_map.mp hm
      have : store.any (matchesKey p.collection p.url) = true :=
        List.any_eq_true.mpr ⟨d, hd, (matchesKey_iff _ _ d).mpr hk⟩
      rw [hany] at this
      exact absurd this (by decide)
    refine ⟨store ++ [p], by simp [UpsertPost, hany], ?_, ?_, ?_, fun _ => by simp, ?_⟩
    · rw [List.filter_append, filter_match_eq_nil _ _ store hnot]
      simp [hp]
    · rw [List.filter_append]
      simp [hp]
    · intro h; rw [hany] at h; exact absurd h (by decide)
    · unfold UniqueKeys at hu ⊢
      rw [List.map_append, List.nodup_append]
      refine ⟨hu, by simp, ?_⟩
      intro k hk1 hk2
      simp only [List.map_cons, List.map_nil, List.mem_singleton] at hk2
      subst hk2
      exact hnot hk1

/-- Witness of C19: the document of `A/notes.md` is upserted again, with another body, into
the store built from `treeTwoNotes`. -/
theorem upsertPost_effect_witness :
    ∃ store1 : Store,
      UpsertPost false storeTwoNotes { notesPost with body := "new".toList } "124252".toList
        = .ok store1 ∧
      store1.filter (matchesKey notesPost.collection notesPost.url)
        = [{ notesPost with body := "new".toList }] ∧
      store1.filter (fun d => !matchesKey notesPost.collection notesPost.url d)
        = storeTwoNotes.filter (fun d => !matchesKey notesPost.collection notesPost.url d) ∧
      (storeTwoNotes.any (matchesKey notesPost.collection notesPost.url) = true →
        store1.length = storeTwoNotes.length) ∧
      (storeTwoNotes.any (matchesKey notesPost.collection notesPost.url) = false →
        store1.length = storeTwoNotes.length + 1) ∧
      UniqueKeys store1 :=
  upsertPost_effect storeTwoNotes { notesPost with body := "new".toList } (by decide)

/-- C20 (the code departs from the claim).  In the example scenario the store holds the
index document and the document of `A/notes.md`; `A/notes.md` is removed and one tick runs
with a working store.  The per-file delete asks for ("content/A", "a-notes"), finds no
document and fails; the store after the tick still holds the document of the removed
file, next to the unchanged index document. -/
theorem removed_file_document_stays :
    (autoSyncFromContent demoEnv noFaults treeIndexNotes []).store = [welcomePost, notesDoc] ∧
    (watchCycle demoEnv noFaults treeIndexOnly (watchInit demoEnv treeIndexNotes)
        [welcomePost, notesDoc] []).calls =
      [(.deletePostByPath "content/A".toList "a-notes".toList, false),
       (.upsertPost welcomePost, true)] ∧
    (watchCycle demoEnv noFaults treeIndexOnly (watchInit demoEnv treeIndexNotes)
        [welcomePost, notesDoc] []).store = [welcomePost, notesDoc] ∧
    derivedPosts demoEnv treeIndexOnly = [welcomePost] := by
  decide

/-- C11 (the code departs from the claim).  `A/x.md` was a tracked file; it was removed and
a directory took its name.  The tree holds no .md file any more, so the map of the current
.md files is empty, but os.Stat still finds the path: the loop that drops deleted files
keeps the entry of `content/A/x.md` with the digest of the removed file, issues no delete
and sets no change. -/
theorem stale_entry_for_replaced_file :
    (watchInit demoEnv treeFileX).fileHashes = [("content/A/x.md".toList, "y".toList)] ∧
    (watchCycle demoEnv noFaults treeDirX (watchInit demoEnv treeFileX) [] []).state.fileHashes
      = [("content/A/x.md".toList, "y".toList)] ∧
    derivedPosts demoEnv treeDirX = [] ∧
    (∀ e ∈ [demoDir "A", demoDir "A/x.md"], trackable demoEnv e = none) ∧
    (watchCycle demoEnv noFaults treeDirX (watchInit demoEnv treeFileX) [] []).calls = [] ∧
    (watchCycle demoEnv noFaults treeDirX (watchInit demoEnv treeFileX) [] []).changed
      = false := by
  decide

/-- The tracked state after a tick over an existing root without duplicate paths, whether
or not a store operation of the tick failed: the tracked map holds for every readable .md
file of the tree its current digest; it holds no entry for a path that no longer exists;
the tracked collections, without repetition, are exactly the first path components of the
directories of the tree, the first-level directory names among them. -/
theorem tracked_state_after_cycle (env : Env) (faults : Faults) (es : List Entry)
    (st : WatchState) (store : Store) (clients : Registry) (hwf : Tree.wf (some es)) :
    (∀ e ∈ es, ∀ bytes : Str, e.walkErr = false → e.isDir = false →
      hasSuffix (toLower (walkPath env e)) ".md".toList = true → e.content = some bytes →
      mapGet (watchCycle env faults (some es) st store clients).state.fileHashes
        (walkPath env e) = some (env.hashOf bytes)) ∧
    (∀ kv ∈ (watchCycle env faults (some es) st store clients).state.fileHashes,
      notExist env (some es) kv.1 = false) ∧
    (∀ c : Str,
      (c ∈ (watchCycle env faults (some es) st store clients).state.collectionDirs ↔
        ∃ e ∈ es, e.walkErr = false ∧ e.isDir = true ∧ (split e.rel '/').headD [] = c)) ∧
    (∀ e ∈ es, e.walkErr = false → e.isDir = true → '/' ∉ e.rel →
      e.rel ∈ (watchCycle env faults (some es) st store clients).state.collectionDirs) ∧
    (watchCycle env faults (some es) st store clients).state.collectionDirs.Nodup := by
  have hs := settled_after_cycle env faults (some es) st store clients hwf
  have hmem : ∀ c : Str,
      (c ∈ (watchCycle env faults (some es) st store clients).state.collectionDirs ↔
        ∃ e ∈ es, e.walkErr = false ∧ e.isDir = true ∧ (split e.rel '/').headD [] = c) := by
    intro c
    rw [hs.1, collectionsOf_some, mem_foldCollections]
    simp
  refine ⟨?_, hs.2.1, hmem, ?_, ?_⟩
  · intro e he bytes hw hd hsuf hc
    apply hs.2.2 es rfl e he
    simp only [trackable, hw, hd, hsuf, hashFile, hc, Bool.false_eq_true, if_false, Bool.not_true,
      Option.map_some']
  · intro e he hw hd hrel
    apply (hmem e.rel).mpr
    refine ⟨e, he, hw, hd, ?_⟩
    rw [split_nosep '/' e.rel hrel]
    rfl
  · rw [hs.1, collectionsOf_some]
    exact nodup_foldCollections env es [] List.nodup_nil

/-- The tick after `A/notes.md` was removed from `treeTwoNotes`, with every store call
failing: the tracked state is the state of the new tree. -/
theorem tracked_state_after_cycle_witness :
    (watchCycle demoEnv allFail treeOneNote (watchInit demoEnv treeTwoNotes) storeTwoNotes
      []).state = ⟨[("content/A/a-notes.md".toList, "x".toList)], ["A".toList]⟩ ∧
    (∀ kv ∈ (watchCycle demoEnv allFail treeOneNote (watchInit demoEnv treeTwoNotes)
        storeTwoNotes []).state.fileHashes, notExist demoEnv treeOneNote kv.1 = false) :=
  ⟨by decide,
   (tracked_state_after_cycle demoEnv allFail [demoDir "A", demoFile "A/a-notes.md" "x"]
      (watchInit demoEnv treeTwoNotes) storeTwoNotes [] (by decide)).2.1⟩

/-- C12, as stated, fails.  In the first tick `b.md` is new, so a change is detected, but
`a.md` cannot be read and autoSyncFromContent returns the error: nothing is broadcast.  In
the second tick the tracked directory `A` has disappeared, but its DeleteCollection call
fails, `changed` stays unset and nothing is broadcast.  In the third tick `a.md` is new and
readable, but the walk reports an error for the directory `D`: autoSyncFromContent returns
it and nothing is broadcast.  In the fourth tick the root is missing: the tracked file is
found deleted, autoSyncFromContent returns the error of os.Stat and nothing is broadcast. -/
theorem no_reload_after_failed_sync :
    (watchCycle demoEnv noFaults treeLocked ⟨[], []⟩ [] [(0, ⟨10, []⟩)]).changed = true ∧
    (watchCycle demoEnv noFaults treeLocked ⟨[], []⟩ [] [(0, ⟨10, []⟩)]).broadcasts = [] ∧
    (watchCycle demoEnv noFaults treeLocked ⟨[], []⟩ [] [(0, ⟨10, []⟩)]).clients
      = [(0, ⟨10, []⟩)] ∧
    (watchCycle demoEnv allFail (some []) ⟨[], ["A".toList]⟩ [] [(0, ⟨10, []⟩)]).calls
      = [(.deleteCollection "content/A".toList, false)] ∧
    (watchCycle demoEnv allFail (some []) ⟨[], ["A".toList]⟩ [] [(0, ⟨10, []⟩)]).broadcasts
      = [] ∧
    (watchCycle demoEnv noFaults treeUnlisted ⟨[], []⟩ [] [(0, ⟨10, []⟩)]).changed = true ∧
    (watchCycle demoEnv noFaults treeUnlisted ⟨[], []⟩ [] [(0, ⟨10, []⟩)]).broadcasts = [] ∧
    (watchCycle demoEnv noFaults none (watchInit demoEnv treeFileX) [] [(0, ⟨10, []⟩)]).changed
      = true ∧
    (watchCycle demoEnv noFaults none (watchInit demoEnv treeFileX) [] [(0, ⟨10, []⟩)]).broadcasts
      = [] := by
  decide

/-- C12, amended.  In a tick in which the sync root exists, the walk reports no error for
any entry below it (every directory can be listed) and every .md file can be read, over a
tree without duplicate paths, in which a change is detected (a file is new or has another
digest than the tracked one, a tracked path no longer exists, or a tracked collection has
disappeared and its DeleteCollection call succeeds), "reload" is broadcast once to the
subscribers, also when upserts or per-file deletes of the tick fail. -/
theorem reload_is_broadcast (env : Env) (faults : Faults) (es : List Entry) (st : WatchState)
    (store : Store) (clients : Registry) (hwf : Tree.wf (some es))
    (hread : ∀ e ∈ es, e.walkErr = false ∧ (isMarkdown e = true → e.content.isSome = true))
    (hdet : (∃ e ∈ es, ∃ h, trackable env e = some h ∧
          mapGet st.fileHashes (walkPath env e) ≠ some h) ∨
      (∃ path ∈ st.fileHashes.map Prod.fst, notExist env (some es) path = true) ∨
      (∃ c ∈ st.collectionDirs, c ∉ collectionsOf env (some es) ∧
          faults.connectFails = false ∧
          faults.opFails (.deleteCollection ("content/".toList ++ c)) = false)) :
    (watchCycle env faults (some es) st store clients).changed = true ∧
    (watchCycle env faults (some es) st store clients).broadcasts = ["reload".toList] ∧
    (watchCycle env faults (some es) st store clients).clients
      = broadcastChange clients "reload".toList := by
  apply watchCycle_reload env faults es st store clients hread
  rcases hdet with ⟨e, he, h, ht, hne⟩ | ⟨path, hpath, hne⟩ | ⟨c, hc, hgone, hconn, hop⟩
  · have : (scanTree env (some es) ⟨false, st.fileHashes, []⟩).changed = true := by
      simp only [scanTree]
      rw [scanFold_eq]
      exact foldHashes_detects env es (false, st.fileHashes) hwf e he h ht hne
    rw [this]
    rfl
  · obtain ⟨kv, hkv, hk⟩ := List.mem_map.mp
      (scanTree_keys env (some es) ⟨false, st.fileHashes, []⟩ path hpath)
    rw [deleteFiles_changed env faults (some es) _ _ kv hkv (hk ▸ hne)]
    simp
  · rw [deleteCollections_changed faults _ st.collectionDirs store c hc
      (by rw [scanTree_collections]; exact hgone) hconn hop]
    simp

/-- Witness of C12: `A/notes.md` is new and every store call fails. -/
theorem reload_is_broadcast_witness :
    (watchCycle demoEnv allFail (some treeNotes) ⟨[], []⟩ [] [(0, ⟨10, []⟩)]).changed = true ∧
    (watchCycle demoEnv allFail (some treeNotes) ⟨[], []⟩ [] [(0, ⟨10, []⟩)]).broadcasts
      = ["reload".toList] ∧
    (watchCycle demoEnv allFail (some treeNotes) ⟨[], []⟩ [] [(0, ⟨10, []⟩)]).clients
      = broadcastChange [(0, ⟨10, []⟩)] "reload".toList :=
  reload_is_broadcast demoEnv allFail treeNotes ⟨[], []⟩ [] [(0, ⟨10, []⟩)] (by decide)
    (by decide) (Or.inl ⟨demoFile "A/notes.md" "y", by decide, "y".toList, by decide, by decide⟩)

/-- C23 (the code departs from the claim).  The body "[Notes](notes.md)" is a relative
link without "./"; processCrossReferences returns it unchanged, not "[Notes](/post/notes)".
The form "[Notes](./notes.md)" is rewritten as documented. -/
theorem plain_relative_link_is_kept :
    processCrossReferences "[Notes](notes.md)".toList "content/A".toList
      = "[Notes](notes.md)".toList ∧
    processCrossReferences "[Notes](notes.md)".toList "content/A".toList
      ≠ "[Notes](/post/notes)".toList ∧
    processCrossReferences "[Notes](./notes.md)".toList "content/A".toList
      = "[Notes](/post/notes)".toList := by
  decide

/-- C24 (the code departs from the claim).  The content of `notes.md` begins with a
front-matter block whose title is "notes", the name of the file without ".md", and its body
has the heading "# Heading".  The test for a missing front-matter title compares the title
with the file name, so the heading replaces the front-matter title. -/
theorem heading_overrides_front_matter_title :
    firstLineWith "title:".toList ((splitN "---".toList 3 frontMatterSameTitle).getD 1 [])
      = some "title: notes".toList ∧
    (parseMarkdownFile frontMatterSameTitle "notes.md".toList).title = "Heading".toList ∧
    (parseMarkdownFile frontMatterSameTitle "notes.md".toList).title ≠ "notes".toList ∧
    (parseMarkdownFile frontMatterSameTitle "other.md".toList).title = "notes".toList := by
  decide

/-- C25 (the code departs from the claim).  For the single byte 0, encode64 returns "AA"
(the standard base64 text without its padding: the switch maps every letter and digit to
itself) and encode64PlantUML returns "00". -/
theorem encoders_differ :
    stdEncode [0] = "AA==".toList ∧
    encode64 [0] = "AA".toList ∧
    encode64PlantUML [0] = "00".toList ∧
    encode64 [0] ≠ encode64PlantUML [0] := by
  decide

/-- C26, as stated, fails: the file `x.md` in the root and the file `root/y.md` in the
first-level directory `root` are both assigned the collection "content/root". -/
theorem root_directory_collides_with_sentinel :
    (autoSyncPost demoEnv "x.md".toList []).collection = "content/root".toList ∧
    (autoSyncPost demoEnv "root/y.md".toList []).collection = "content/root".toList := by
  decide

/-- C26, amended.  A file that sits directly in the sync root and a file below a
first-level directory are assigned the same collection by autoSyncFromContent exactly when
that directory is named "root"; for every other directory name the two collections
differ. -/
theorem sentinel_collides_only_with_root (env : Env) (rel c rest content1 content2 : Str)
    (hrel : '/' ∉ rel) (hc : '/' ∉ c) :
    ((autoSyncPost env rel content1).collection
        = (autoSyncPost env (c ++ '/' :: rest) content2).collection ↔ c = "root".toList) := by
  rw [autoSyncPost_eq, autoSyncPost_eq, autoSyncCollection_root rel hrel,
    autoSyncCollection_dir c rest hc]
  have e : "content/root".toList = "content/".toList ++ "root".toList := rfl
  simp only [e]
  constructor
  · intro h; exact (List.append_cancel_left h).symm
  · intro h; rw [h]

/-- Witness of C26: `x.md` in the root and `A/y.md`. -/
theorem sentinel_collides_only_with_root_witness :
    ((autoSyncPost demoEnv "x.md".toList []).collection
        = (autoSyncPost demoEnv ("A".toList ++ '/' :: "y.md".toList) []).collection
      ↔ "A".toList = "root".toList) ∧
    (autoSyncPost demoEnv "x.md".toList []).collection
      ≠ (autoSyncPost demoEnv "A/y.md".toList []).collection :=
  ⟨sentinel_collides_only_with_root demoEnv "x.md".toList "A".toList "y.md".toList [] []
      (by decide) (by decide),
   by decide⟩

/-- C22.  For every title and relative path the result of createSlug contains no space, no
"/" and no "--", and it is the same for every title.  The dash-collapsing loop ends: once
its bound is at least the length of the text, a larger bound gives the same result. -/
theorem createSlug_clean (title relPath : Str) :
    ' ' ∉ createSlug title relPath ∧
    '/' ∉ createSlug title relPath ∧
    contains (createSlug title relPath) "--".toList = false ∧
    (∀ title2 : Str, createSlug title2 relPath = createSlug title relPath) ∧
    (∀ n : Nat,
      (replaceAll (replaceAll (toLower (trimSuffix relPath ".md".toList)) " ".toList
        "-".toList) "/".toList "-".toList).length ≤ n →
      collapseLoop n (replaceAll (replaceAll (toLower (trimSuffix relPath ".md".toList))
        " ".toList "-".toList) "/".toList "-".toList) = createSlug title relPath) := by
  have e1 : " ".toList = [' '] := rfl
  have e2 : "-".toList = ['-'] := rfl
  have e3 : "/".toList = ['/'] := rfl
  have hpre : ∀ c ∈ replaceAll (replaceAll (toLower (trimSuffix relPath ".md".toList))
      " ".toList "-".toList) "/".toList "-".toList, c ≠ ' ' ∧ c ≠ '/' := by
    intro c hc
    rw [e1, e2, e3, replaceAll_single, replaceAll_single, List.map_map] at hc
    obtain ⟨x, _, hx⟩ := List.mem_map.mp hc
    subst hx
    simp only [Function.comp]
    by_cases h1 : x = ' '
    · simp [h1]
    · by_cases h2 : x = '/'
      · simp [h2]
      · simp [h1, h2]
  refine ⟨?_, ?_, ?_, fun _ => rfl, ?_⟩
  · intro h
    rcases mem_collapseLoop _ _ _ h with h1 | h1
    · exact (hpre _ h1).1 rfl
    · exact absurd h1 (by decide)
  · intro h
    rcases mem_collapseLoop _ _ _ h with h1 | h1
    · exact (hpre _ h1).2 rfl
    · exact absurd h1 (by decide)
  · exact collapseLoop_clean _ _ (Nat.le_refl _)
  · intro n hn
    exact collapseLoop_bound n _ _ hn (Nat.le_refl _)

/-- Witness of C22: the path `A - b/ c--d  e.md` with the bound 100. -/
theorem createSlug_clean_witness :
    collapseLoop 100 (replaceAll (replaceAll
        (toLower (trimSuffix "A - b/ c--d  e.md".toList ".md".toList)) " ".toList "-".toList)
        "/".toList "-".toList)
      = createSlug "Title".toList "A - b/ c--d  e.md".toList ∧
    createSlug "Title".toList "A - b/ c--d  e.md".toList = "a-b-c-d-e".toList :=
  ⟨(createSlug_clean "Title".toList "A - b/ c--d  e.md".toList).2.2.2.2 100 (by decide),
   by decide⟩

/-- C27, as stated, fails: "[t](./a.md.md)" is rewritten to "[t](/post/a.md)", and a second
application rewrites that text again, to "[t](/post/a)". -/
theorem second_rewriting_changes_text :
    processCrossReferences "[t](./a.md.md)".toList "content/A".toList
      = "[t](/post/a.md)".toList ∧
    processCrossReferences
        (processCrossReferences "[t](./a.md.md)".toList "content/A".toList) "content/A".toList
      = "[t](/post/a)".toList ∧
    processCrossReferences
        (processCrossReferences "[t](./a.md.md)".toList "content/A".toList) "content/A".toList
      ≠ processCrossReferences "[t](./a.md.md)".toList "content/A".toList := by
  decide

/-- C27, amended.  processCrossReferences leaves unchanged every body none of whose lines
contains "](./", "](.md)", or both "](/post/" and ".md)"; so a body that was rewritten once
is not changed by a second application whenever the first result has no such line. -/
theorem rewriting_twice (body c1 c2 : Str) :
    ((∀ l ∈ split body newline, settledLine l = true) →
      processCrossReferences body c1 = body) ∧
    ((∀ l ∈ split (processCrossReferences body c1) newline, settledLine l = true) →
      processCrossReferences (processCrossReferences body c1) c2
        = processCrossReferences body c1) :=
  ⟨processCrossReferences_settled body c1,
   processCrossReferences_settled (processCrossReferences body c1) c2⟩

/-- Witness of C27: the link "[Notes](./notes.md)" followed by a line of text. -/
theorem rewriting_twice_witness :
    processCrossReferences
        (processCrossReferences ("[Notes](./notes.md)".toList ++ newline :: "text".toList)
          "content/A".toList) "uploaded/B".toList
      = processCrossReferences ("[Notes](./notes.md)".toList ++ newline :: "text".toList)
          "content/A".toList ∧
    processCrossReferences ("[Notes](./notes.md)".toList ++ newline :: "text".toList)
        "content/A".toList
      = "[Notes](/post/notes)".toList ++ newline :: "text".toList :=
  ⟨(rewriting_twice ("[Notes](./notes.md)".toList ++ newline :: "text".toList)
      "content/A".toList "uploaded/B".toList).2 (by decide),
   by decide⟩

/-- C28.  For every byte sequence of length n the text of encode64PlantUML has
ceil(8n/6) characters, all of them from the alphabet "0-9A-Za-z-_" of 64 different
characters, and two different byte sequences give different texts.  After every byte
fewer than six bits are pending, and the text is the one of the groups of three bytes: no
pending bit is lost in the 32-bit accumulator. -/
theorem encode64PlantUML_injective :
    (∀ data : List Byte, (encode64PlantUML data).length = (8 * data.length + 5) / 6) ∧
    (∀ (data : List Byte) (ch : Char), ch ∈ encode64PlantUML data → ch ∈ alphabet) ∧
    alphabet.length = 64 ∧ alphabet.Nodup ∧
    (∀ d1 d2 : List Byte, encode64PlantUML d1 = encode64PlantUML d2 → d1 = d2) ∧
    (∀ (s : Acc) (b : Byte), (pushByte s b).bitsLen < 6) ∧
    (∀ data : List Byte, encode64PlantUML data = sextets data) := by
  refine ⟨?_, ?_, by decide, by decide, ?_, ?_, encode64PlantUML_eq_sextets⟩
  · intro data
    rw [encode64PlantUML_eq_sextets, sextets_length]
  · intro data ch h
    rw [encode64PlantUML_eq_sextets] at h
    exact sextets_mem data ch h
  · intro d1 d2 h
    rw [encode64PlantUML_eq_sextets, encode64PlantUML_eq_sextets] at h
    exact sextets_injective d1 d2 h
  · intro s b
    exact emitLoop_done _ _ (Nat.le_refl _)

/-- Witness of C28: the bytes 255, 254, 3, 77 give a text of six characters of the
alphabet. -/
theorem encode64PlantUML_injective_witness :
    ([255, 254, 3, 77] : List Byte) = [255, 254, 3, 77] ∧
    encode64PlantUML [255, 254, 3, 77] = "__u3JG".toList ∧
    (encode64PlantUML [255, 254, 3, 77]).length = (8 * 4 + 5) / 6 ∧
    'u' ∈ alphabet :=
  ⟨encode64PlantUML_injective.2.2.2.2.1 [255, 254, 3, 77] [255, 254, 3, 77] (by decide),
   by decide, by decide,
   encode64PlantUML_injective.2.1 [255, 254, 3, 77] 'u' (by decide)⟩

/-- C21.  A tracked first-level directory `d` has disappeared and the store works.  The
loop over the tracked collections leaves exactly the documents that are in no removed
collection, in their order; the tick issues the DeleteCollection call for "content/"
followed by `d`, and it succeeds; after the tick a document of that collection can only be
one that autoSyncFromContent has written for a file of the current tree; and when every
tracked file that has disappeared was below a removed directory, every document of another
collection still has its (collection, url) in the store after the tick. -/
theorem removed_collection_documents (env : Env) (faults : Faults) (tree : Tree)
    (st : WatchState) (store : Store) (clients : Registry) (d : Str)
    (hw : faults.working) (hd : d ∈ st.collectionDirs) (hgone : d ∉ collectionsOf env tree) :
    (deleteCollections faults (collectionsOf env tree) st.collectionDirs store).store
      = store.filter
          (fun p => !removedCollection (collectionsOf env tree) st.collectionDirs p) ∧
    (StoreOp.deleteCollection ("content/".toList ++ d), true)
      ∈ (watchCycle env faults tree st store clients).calls ∧
    (∀ q ∈ (watchCycle env faults tree st store clients).store,
      q.collection = "content/".toList ++ d →
      ∃ es, tree = some es ∧ ∃ e ∈ es, ∃ bytes, e.content = some bytes ∧
        postKey q = postKey (autoSyncPost env e.rel bytes)) ∧
    ((∀ path ∈ st.fileHashes.map Prod.fst, notExist env tree path = true →
        ∃ c rest : Str, c ∈ st.collectionDirs ∧ c ∉ collectionsOf env tree ∧ '/' ∉ c ∧
          path = env.syncDir ++ '/' :: (c ++ '/' :: rest)) →
      ∀ p ∈ store, removedCollection (collectionsOf env tree) st.collectionDirs p = false →
        postKey p ∈ (watchCycle env faults tree st store clients).store.map postKey) := by
  have hS1 := deleteCollections_store faults (collectionsOf env tree) st.collectionDirs store hw
  have hnot : ∀ q ∈ (deleteFiles env faults tree
      (scanTree env tree ⟨false, st.fileHashes, []⟩).fileHashes
      (deleteCollections faults (collectionsOf env tree) st.collectionDirs store).store).2.store,
      q.collection ≠ "content/".toList ++ d := by
    intro q hq hcol
    have h1 := deleteFiles_subset env faults tree _ _ q hq
    rw [hS1] at h1
    have h2 := (List.mem_filter.mp h1).2
    rw [removedCollection_of_mem _ _ q d hd hgone hcol] at h2
    exact absurd h2 (by decide)
  refine ⟨hS1, ?_, ?_, ?_⟩
  · obtain ⟨l3, h, _⟩ := watchCycle_calls env faults tree st store clients
    rw [h]
    apply List.mem_append_left
    apply List.mem_append_left
    exact deleteCollections_call_ok faults _ _ store hw d hd
      (by rw [scanTree_collections]; exact hgone)
  · intro q hq hcol
    rcases watchCycle_store env faults tree st store clients with h | h
    · rw [h] at hq
      exact absurd hcol (hnot q hq)
    · rw [h] at hq
      rcases (autoSyncFromContent_keys env faults tree _).2 (postKey q)
        (List.mem_map_of_mem _ hq) with h1 | h1
      · obtain ⟨p, hp, hk⟩ := List.mem_map.mp h1
        have hc : p.collection = q.collection := congrArg Prod.fst hk
        exact absurd (hc.trans hcol) (hnot p hp)
      · exact h1
  · intro hfiles p hp hkeep
    have hp1 : p ∈ (deleteCollections faults (collectionsOf env tree) st.collectionDirs
        store).store := by
      rw [hS1]
      exact List.mem_filter.mpr ⟨hp, by simp [hkeep]⟩
    have hnoop := deleteFiles_store_noop env faults tree
      (scanTree env tree ⟨false, st.fileHashes, []⟩).fileHashes
      (deleteCollections faults (collectionsOf env tree) st.collectionDirs store).store
      (by
        intro kv hkv hne
        have htr := vanished_key_was_tracked env tree st.fileHashes kv.1
          (List.mem_map_of_mem _ hkv) hne
        obtain ⟨c, rest, hc, hcg, hslash, hpath⟩ := hfiles kv.1 htr hne
        rw [Bool.eq_false_iff]
        intro hany
        obtain ⟨q, hq, hm⟩ := List.any_eq_true.mp hany
        have hk := (matchesKey_iff _ _ q).mp hm
        have hcol : q.collection = "content/".toList ++ c := by
          have := congrArg Prod.fst hk
          simp only [postKey] at this
          rw [this, hpath, deleteKey_collection env c rest hslash]
        rw [hS1] at hq
        have h2 := (List.mem_filter.mp hq).2
        rw [removedCollection_of_mem _ _ q c hc hcg hcol] at h2
        exact absurd h2 (by decide))
    have hp2 : postKey p ∈ ((deleteFiles env faults tree
        (scanTree env tree ⟨false, st.fileHashes, []⟩).fileHashes
        (deleteCollections faults (collectionsOf env tree) st.collectionDirs
          store).store).2.store).map postKey := by
      rw [hnoop]
      exact List.mem_map_of_mem _ hp1
    rcases watchCycle_store env faults tree st store clients with h | h
    · rw [h]; exact hp2
    · rw [h]; exact (autoSyncFromContent_keys env faults tree _).1 _ hp2

/-- Witness of C21: the directory `A` of the example scenario is removed; the tick deletes
the collection "content/A", and the index document and the notes document are gone. -/
theorem removed_collection_documents_witness :
    (StoreOp.deleteCollection ("content/".toList ++ "A".toList), true)
      ∈ (watchCycle demoEnv noFaults (some []) (watchInit demoEnv treeIndexNotes)
          [welcomePost, notesDoc] []).calls ∧
    (watchCycle demoEnv noFaults (some []) (watchInit demoEnv treeIndexNotes)
      [welcomePost, notesDoc] []).store = [] :=
  ⟨(removed_collection_documents demoEnv noFaults (some []) (watchInit demoEnv treeIndexNotes)
      [welcomePost, notesDoc] [] "A".toList ⟨rfl, fun _ => rfl⟩ (by decide) (by decide)).2.1,
   by decide⟩

end GoMarkdown
